import Mathlib

/-!
Shallow embedding of the geochunk zip2010 module.

The source builds a population table keyed by zip-code prefixes, recursively
partitions the prefix tree into chunks of approximately a target population,
and answers longest-prefix-match queries.  Strings are modelled as lists of
characters; the HashMap is modelled as an association list where insertion
prepends and lookup returns the most recent binding, which has the same
observable get semantics as HashMap insert/get.  Panics are modelled as
error values of an explicit panic type; fallible code returns Except.
-/

namespace Geochunk

/-- Zip codes, prefixes and chunk identifiers are ASCII strings, modelled as
lists of characters. -/
abbrev ZStr := List Char

instance {ε α : Type} [DecidableEq ε] [DecidableEq α] : DecidableEq (Except ε α)
  | .error e, .error f =>
    if h : e = f then .isTrue (by rw [h])
    else .isFalse (by intro hh; injection hh; contradiction)
  | .error _, .ok _ => .isFalse (by intro hh; injection hh)
  | .ok _, .error _ => .isFalse (by intro hh; injection hh)
  | .ok a, .ok b =>
    if h : a = b then .isTrue (by rw [h])
    else .isFalse (by intro hh; injection hh; contradiction)

/-- ZIP_CODE_LENGTH in the source: the length of a basic zip code in digits. -/
def ZIP_CODE_LENGTH : Nat := 5

/-- Association-list get: first (most recently inserted) binding for the key,
modelling HashMap::get. -/
def alGet {β : Type} : List (ZStr × β) → ZStr → Option β
  | [], _ => none
  | (k, v) :: m, k2 => if k2 = k then some v else alGet m k2

/-- Increment-or-insert on the population map for one key, modelling the
Entry::Occupied / Entry::Vacant match in PrefixPopulation::new. -/
def addPop : List (ZStr × Nat) → ZStr → Nat → List (ZStr × Nat)
  | [], k, v => [(k, v)]
  | (k2, v2) :: m, k, v =>
    if k2 = k then (k2, v2 + v) :: m else (k2, v2) :: addPop m k v

/-- A string made only of decimal digit characters. -/
def DigitStr (s : ZStr) : Prop := ∀ c ∈ s, c ∈ (List.range 10).map Nat.digitChar

instance (s : ZStr) : Decidable (DigitStr s) := by
  unfold DigitStr; infer_instance

/-- The string p is a leading substring (prefix in the spec sense) of s. -/
def IsLead (p s : ZStr) : Prop := ∃ r, s = p ++ r

/-- Digit list of a positive number, most significant first; the fuel bounds
the recursion and any fuel of at least n is enough. -/
def natDecimalAux : Nat → Nat → ZStr
  | 0, _ => []
  | fuel + 1, n =>
    if n = 0 then [] else natDecimalAux fuel (n / 10) ++ [Nat.digitChar (n % 10)]

/-- Decimal rendering of a natural number, as produced by Display for u64. -/
def natDecimal (n : Nat) : ZStr :=
  if n = 0 then ['0'] else natDecimalAux n n

/-- The chunk identifier for leftover group i under a parent prefix,
the string produced by format of prefix, an underscore and the index. -/
def chunkId (pfx : ZStr) (i : Nat) : ZStr := pfx ++ '_' :: natDecimal i

/-- The part of a chunk identifier before the first underscore; for a leaf
identifier (pure digit string) this is the identifier itself. -/
def ownerOf (v : ZStr) : ZStr := v.takeWhile (fun c => !(c = '_' : Bool))

/-- The population table: for each prefix length, an aggregate population map.
The source uses an array of ZIP_CODE_LENGTH + 1 hash maps; only indices
0 to ZIP_CODE_LENGTH are ever populated or read. -/
structure PrefixPopulation where
  maps : Nat → List (ZStr × Nat)

/-- One row of PrefixPopulation::new: add this zip population to every prefix
length from 0 to ZIP_CODE_LENGTH.  The source slices zip[0..len], which
requires the code to have at least ZIP_CODE_LENGTH characters; List.take
agrees with that slice on such codes. -/
def bumpRow (maps : Nat → List (ZStr × Nat)) (zip : ZStr) (pop : Nat) :
    Nat → List (ZStr × Nat) :=
  fun len =>
    if len ≤ ZIP_CODE_LENGTH then addPop (maps len) (zip.take len) pop else maps len

/-- PrefixPopulation::new over an externally supplied list of rows
(the CSV source is an external collaborator). -/
def PrefixPopulation.new (rows : List (ZStr × Nat)) : PrefixPopulation :=
  ⟨rows.foldl (fun maps r => bumpRow maps r.1 r.2) (fun _ => [])⟩

/-- The stored aggregate population of a prefix, 0 when absent: the value
PrefixPopulation::lookup returns when it does not panic. -/
def PrefixPopulation.pop (pp : PrefixPopulation) (pfx : ZStr) : Nat :=
  (alGet (pp.maps pfx.length) pfx).getD 0

/-- The panic conditions of construction: the length guard in
PrefixPopulation::lookup, the assert in the leftover loop, and exhaustion of
the recursion-depth token (never reached from Classifier::new). -/
inductive BuildPanic where
  | lookupOverflow
  | assertFailed
  | fuelOut
  deriving DecidableEq, Repr

/-- PrefixPopulation::lookup: panics when the prefix is longer than
ZIP_CODE_LENGTH, otherwise the stored population or 0. -/
def PrefixPopulation.lookup (pp : PrefixPopulation) (pfx : ZStr) :
    Except BuildPanic Nat :=
  if ZIP_CODE_LENGTH < pfx.length then .error .lookupOverflow
  else .ok (pp.pop pfx)

/-- The second loop of build_chunks_recursive: greedily group the leftover
children into chunks named chunkId pfx i.  The assert that a leftover
population is below the target is modelled as the assertFailed panic. -/
def groupLeftovers (pp : PrefixPopulation) (t : Nat) (pfx : ZStr) :
    List ZStr → Nat → Nat → List (ZStr × ZStr) →
    Except BuildPanic (List (ZStr × ZStr))
  | [], _, _, acc => .ok acc
  | child :: rest, chunkIdx, chunkPop, acc =>
    match pp.lookup child with
    | .error e => .error e
    | .ok childPop =>
      if childPop < t then
        let idx := if t < chunkPop + childPop then chunkIdx + 1 else chunkIdx
        let carry := if t < chunkPop + childPop then 0 else chunkPop
        groupLeftovers pp t pfx rest idx (carry + childPop)
          ((child, chunkId pfx idx) :: acc)
      else .error .assertFailed

/-- The first loop of build_chunks_recursive: for each digit, recurse (via the
callback) into children at least as populous as the target and collect the
smaller children as leftovers, in digit order. -/
def childLoop (pp : PrefixPopulation) (t : Nat) (pfx : ZStr)
    (go : ZStr → List (ZStr × ZStr) → Except BuildPanic (List (ZStr × ZStr))) :
    List Nat → List (ZStr × ZStr) → List ZStr →
    Except BuildPanic (List (ZStr × ZStr) × List ZStr)
  | [], acc, lefts => .ok (acc, lefts)
  | d :: ds, acc, lefts =>
    let child := pfx ++ [Nat.digitChar d]
    match pp.lookup child with
    | .error e => .error e
    | .ok childPop =>
      if t ≤ childPop then
        match go child acc with
        | .error e => .error e
        | .ok acc2 => childLoop pp t pfx go ds acc2 lefts
      else childLoop pp t pfx go ds acc (lefts ++ [child])

/-- PrefixPopulation::build_chunks_recursive.  The recursion in the source is
bounded by the code length because lookup panics on over-long prefixes; the
fuel argument is a termination token, instantiated so that it never runs out
when starting from the empty prefix. -/
def build_chunks_recursive (pp : PrefixPopulation) :
    Nat → Nat → ZStr → List (ZStr × ZStr) →
    Except BuildPanic (List (ZStr × ZStr))
  | 0, _, _, _ => .error .fuelOut
  | fuel + 1, t, pfx, acc =>
    match pp.lookup pfx with
    | .error e => .error e
    | .ok pfxPop =>
      if pfxPop ≤ t then .ok ((pfx, pfx) :: acc)
      else
        match childLoop pp t pfx
            (fun child acc2 => build_chunks_recursive pp fuel t child acc2)
            (List.range 10) acc [] with
        | .error e => .error e
        | .ok (acc2, lefts) => groupLeftovers pp t pfx lefts 0 0 acc2
termination_by structural fuel _ _ _ => fuel

/-- The Classifier: the target population and the prefix-to-chunk map. -/
structure Classifier where
  target_population : Nat
  chunk_id_for_pfx : List (ZStr × ZStr)
  deriving DecidableEq

/-- Classifier::new, taking the population rows as an explicit input (the
embedded CSV is external data).  A construction-time panic of the source is
an error value here. -/
def Classifier.new (rows : List (ZStr × Nat)) (target_population : Nat) :
    Except BuildPanic Classifier :=
  let pp := PrefixPopulation.new rows
  match build_chunks_recursive pp (ZIP_CODE_LENGTH + 1) target_population [] [] with
  | .error e => .error e
  | .ok m => .ok ⟨target_population, m⟩

/-- Outcome of a query: the Ok branch of the Result, the Err branch (never
constructed by the body of chunk_for), or a panic (the out-of-range byte
slice on a short code). -/
inductive QueryResult where
  | ok (chunk : ZStr)
  | err
  | panicked
  deriving DecidableEq, Repr

/-- The loop of Classifier::chunk_for over i_rev, with i running from
ZIP_CODE_LENGTH down to 0.  The slice zip[..i] panics when i exceeds the
length of zip; on exhaustion the source returns Ok of the empty string. -/
def chunkForLoop (m : List (ZStr × ZStr)) (zip : ZStr) : List Nat → QueryResult
  | [] => .ok []
  | iRev :: rest =>
    let i := ZIP_CODE_LENGTH - iRev
    if i ≤ zip.length then
      match alGet m (zip.take i) with
      | some cid => .ok cid
      | none => chunkForLoop m zip rest
    else .panicked

/-- Classifier::chunk_for. -/
def Classifier.chunk_for (c : Classifier) (zip : ZStr) : QueryResult :=
  chunkForLoop c.chunk_id_for_pfx zip (List.range (ZIP_CODE_LENGTH + 1))

/-- Sum of the table populations of all prefixes a chunk map assigns to a
given chunk identifier. -/
def valueSum (pp : PrefixPopulation) (l : List (ZStr × ZStr)) (v : ZStr) : Nat :=
  ((l.filter (fun kv => kv.2 = v)).map (fun kv => pp.pop kv.1)).sum

/-- The set of distinct chunk identifiers appearing in a chunk map. -/
def idsOf (l : List (ZStr × ZStr)) : Finset ZStr := (l.map Prod.snd).toFinset

/-- The number of distinct chunk identifiers of a built classifier, when
construction succeeds. -/
def chunkCount (r : Except BuildPanic Classifier) : Option Nat :=
  r.toOption.map (fun c => (idsOf c.chunk_id_for_pfx).card)

/-- Number of times the greedy leftover loop opens a new group, starting from
a given running group population. -/
def nfSteps (t : Nat) : Nat → List Nat → Nat
  | _, [] => 0
  | c, x :: xs => if t < c + x then 1 + nfSteps t x xs else nfSteps t (c + x) xs

/-- The set of group indices the greedy leftover loop assigns, starting from
group index i0 with running population c0. -/
def binIdsFrom (t : Nat) : Nat → Nat → List Nat → Finset Nat
  | _, _, [] => ∅
  | i0, c0, x :: xs =>
    let i1 := if t < c0 + x then i0 + 1 else i0
    let c1 := (if t < c0 + x then 0 else c0) + x
    insert i1 (binIdsFrom t i1 c1 xs)

/-- Decimal parse-back, a left inverse of natDecimal used to prove that
decimal rendering is injective. -/
def decVal (s : ZStr) : Nat := s.foldl (fun a c => 10 * a + (c.toNat - 48)) 0

/-- Population rows on which raising the target from 10 to 14 increases the
number of distinct chunk identifiers from 4 to 5. -/
def nonMonotoneRows : List (ZStr × Nat) :=
  [(['0', '0', '0', '0', '0'], 5), (['1', '0', '0', '0', '0'], 10),
   (['2', '0', '0', '0', '0'], 5), (['3', '0', '0', '0', '0'], 10),
   (['4', '0', '0', '0', '0'], 5)]

/-- Everything the characterization of a successful build_chunks_recursive
call provides about the freshly inserted pairs. -/
structure BuildOut (pp : PrefixPopulation) (t : Nat) (P : ZStr)
    (nw : List (ZStr × ZStr)) : Prop where
  nonempty : nw ≠ []
  keyLead : ∀ kv ∈ nw, IsLead P kv.1
  keyLen : ∀ kv ∈ nw, kv.1.length ≤ ZIP_CODE_LENGTH
  keyDigits : ∀ kv ∈ nw, DigitStr kv.1
  keysNodup : (nw.map Prod.fst).Nodup
  valShape : ∀ kv ∈ nw, (kv.2 = kv.1 ∧ pp.pop kv.1 ≤ t) ∨
    ∃ Q i, kv.2 = chunkId Q i ∧ IsLead P Q ∧ DigitStr Q ∧
      Q.length ≤ ZIP_CODE_LENGTH
  groupBound : ∀ Q i, valueSum pp nw (chunkId Q i) ≤ t
  covers : ∀ z, DigitStr z → z.length = ZIP_CODE_LENGTH → IsLead P z →
    ∃ kv ∈ nw, IsLead kv.1 z

/-- Everything the characterization of a successful child loop provides about
the pairs inserted by the recursive calls on populous children. -/
structure ChildOut (pp : PrefixPopulation) (t : Nat) (P : ZStr) (ds : List Nat)
    (nw : List (ZStr × ZStr)) : Prop where
  keyLead : ∀ kv ∈ nw, ∃ d ∈ ds,
    IsLead (P ++ [Nat.digitChar d]) kv.1 ∧ t ≤ pp.pop (P ++ [Nat.digitChar d])
  keyLen : ∀ kv ∈ nw, kv.1.length ≤ ZIP_CODE_LENGTH
  keyDigits : ∀ kv ∈ nw, DigitStr kv.1
  keysNodup : (nw.map Prod.fst).Nodup
  valShape : ∀ kv ∈ nw, (kv.2 = kv.1 ∧ pp.pop kv.1 ≤ t) ∨
    ∃ Q i, kv.2 = chunkId Q i ∧ (∃ d ∈ ds, IsLead (P ++ [Nat.digitChar d]) Q) ∧
      DigitStr Q ∧ Q.length ≤ ZIP_CODE_LENGTH
  groupBound : ∀ Q i, valueSum pp nw (chunkId Q i) ≤ t
  recursedCover : ∀ d ∈ ds, t ≤ pp.pop (P ++ [Nat.digitChar d]) →
    ∀ z, DigitStr z → z.length = ZIP_CODE_LENGTH →
      IsLead (P ++ [Nat.digitChar d]) z → ∃ kv ∈ nw, IsLead kv.1 z
  lenOk : ds ≠ [] → P.length < ZIP_CODE_LENGTH

/-- The leftover children a run of the child loop defers to grouping. -/
def leftoverChildren (pp : PrefixPopulation) (t : Nat) (P : ZStr)
    (ds : List Nat) : List ZStr :=
  ds.filterMap (fun d =>
    let child := P ++ [Nat.digitChar d]
    if pp.pop child < t then some child else none)

/-! ### Association list lemmas -/

theorem alGet_mem {β : Type} : ∀ (m : List (ZStr × β)) (k : ZStr) (v : β),
    alGet m k = some v → (k, v) ∈ m
  | [], _, _, h => by simp [alGet] at h
  | (k2, v2) :: m, k, v, h => by
    by_cases hk : k = k2
    · subst hk
      simp [alGet] at h
      simp [h]
    · simp [alGet, hk] at h
      exact List.mem_cons_of_mem _ (alGet_mem m k v h)

theorem mem_alGet_isSome {β : Type} : ∀ (m : List (ZStr × β)) (k : ZStr) (v : β),
    (k, v) ∈ m → (alGet m k).isSome
  | [], _, _, h => by simp at h
  | (k2, v2) :: m, k, v, h => by
    by_cases hk : k = k2
    · simp [alGet, hk]
    · rcases List.mem_cons.1 h with h1 | h1
      · exact absurd (congrArg Prod.fst h1) hk
      · simpa [alGet, hk] using mem_alGet_isSome m k v h1

theorem alGet_append_some {β : Type} (a b : List (ZStr × β)) (k : ZStr) (v : β)
    (h : alGet a k = some v) : alGet (a ++ b) k = some v := by
  induction a with
  | nil => simp [alGet] at h
  | cons kv a ih =>
    obtain ⟨k2, v2⟩ := kv
    by_cases hk : k = k2
    · simp_all [alGet]
    · simp [alGet, hk] at h ⊢
      exact ih h

theorem alGet_append_none {β : Type} (a b : List (ZStr × β)) (k : ZStr)
    (h : alGet a k = none) : alGet (a ++ b) k = alGet b k := by
  induction a with
  | nil => simp [alGet]
  | cons kv a ih =>
    obtain ⟨k2, v2⟩ := kv
    by_cases hk : k = k2
    · simp [alGet, hk] at h
    · simp [alGet, hk] at h ⊢
      exact ih h

theorem alGet_addPop_getD : ∀ (m : List (ZStr × Nat)) (k : ZStr) (v : Nat)
    (k2 : ZStr), (alGet (addPop m k v) k2).getD 0 =
      (alGet m k2).getD 0 + (if k2 = k then v else 0)
  | [], k, v, k2 => by
    by_cases hk : k2 = k <;> simp [addPop, alGet, hk]
  | (k3, v3) :: m, k, v, k2 => by
    by_cases h3 : k3 = k
    · subst h3
      by_cases hk : k2 = k3 <;> simp [addPop, alGet, hk]
    · by_cases hk : k2 = k3
      · have hk2 : ¬k2 = k := by rw [hk]; exact h3
        simp [addPop, h3, alGet, hk, hk2]
      · simp [addPop, h3, alGet, hk]
        exact alGet_addPop_getD m k v k2

/-! ### Prefix-order lemmas -/

theorem isLead_refl (p : ZStr) : IsLead p p := ⟨[], by simp⟩

theorem isLead_nil (s : ZStr) : IsLead [] s := ⟨s, rfl⟩

theorem isLead_append (p r : ZStr) : IsLead p (p ++ r) := ⟨r, rfl⟩

theorem isLead_len {p s : ZStr} (h : IsLead p s) : p.length ≤ s.length := by
  obtain ⟨r, rfl⟩ := h; simp

theorem isLead_take {p s : ZStr} (h : IsLead p s) : s.take p.length = p := by
  obtain ⟨r, rfl⟩ := h
  simp

theorem isLead_of_take {s : ZStr} (n : Nat) : IsLead (s.take n) s :=
  ⟨s.drop n, (List.take_append_drop n s).symm⟩

theorem isLead_trans {p q s : ZStr} (h1 : IsLead p q) (h2 : IsLead q s) :
    IsLead p s := by
  obtain ⟨r1, rfl⟩ := h1
  obtain ⟨r2, rfl⟩ := h2
  exact ⟨r1 ++ r2, by simp⟩

theorem isLead_same_len {p q s : ZStr} (h1 : IsLead p s) (h2 : IsLead q s)
    (hl : p.length = q.length) : p = q := by
  have t1 := isLead_take h1
  have t2 := isLead_take h2
  rw [hl] at t1
  exact t1.symm.trans t2

theorem isLead_snoc_char {p s : ZStr} {a b : Char}
    (h1 : IsLead (p ++ [a]) s) (h2 : IsLead (p ++ [b]) s) : a = b := by
  have := isLead_same_len h1 h2 (by simp)
  simpa using this

theorem isLead_snoc_weaken {p s : ZStr} {a : Char}
    (h : IsLead (p ++ [a]) s) : IsLead p s :=
  isLead_trans ⟨[a], rfl⟩ h

theorem isLead_ext {p z : ZStr} (h : IsLead p z) (hl : p.length < z.length) :
    ∃ c r, z = p ++ c :: r := by
  obtain ⟨r, rfl⟩ := h
  cases r with
  | nil => simp at hl
  | cons c r => exact ⟨c, r, rfl⟩

/-! ### Digit string lemmas -/

theorem digitStr_nil : DigitStr [] := by intro c hc; simp at hc

theorem digitStr_append {a b : ZStr} (ha : DigitStr a) (hb : DigitStr b) :
    DigitStr (a ++ b) := by
  intro c hc
  rcases List.mem_append.1 hc with h | h
  · exact ha c h
  · exact hb c h

theorem digitStr_of_append_left {a b : ZStr} (h : DigitStr (a ++ b)) :
    DigitStr a := fun c hc => h c (List.mem_append.2 (Or.inl hc))

theorem digitStr_of_isLead {p s : ZStr} (hl : IsLead p s) (h : DigitStr s) :
    DigitStr p := by
  obtain ⟨r, rfl⟩ := hl
  exact digitStr_of_append_left h

theorem digitStr_digitChar {d : Nat} (h : d < 10) :
    DigitStr [Nat.digitChar d] := by
  intro c hc
  simp at hc
  subst hc
  simp only [List.mem_map, List.mem_range]
  exact ⟨d, h, rfl⟩

theorem underscore_not_digitStr {s : ZStr} (h : DigitStr s) : '_' ∉ s := by
  intro hmem
  have := h '_' hmem
  revert this
  decide

theorem digitChar_inj_aux : ∀ d < 10, ∀ e < 10,
    Nat.digitChar d = Nat.digitChar e → d = e := by decide

theorem digitChar_inj {d e : Nat} (hd : d < 10) (he : e < 10)
    (h : Nat.digitChar d = Nat.digitChar e) : d = e :=
  digitChar_inj_aux d hd e he h

theorem exists_digit_of_mem {s : ZStr} {c : Char} (h : DigitStr s)
    (hc : c ∈ s) : ∃ d, d < 10 ∧ c = Nat.digitChar d := by
  have := h c hc
  simp only [List.mem_map, List.mem_range] at this
  obtain ⟨d, hd, rfl⟩ := this
  exact ⟨d, hd, rfl⟩

/-! ### Decimal rendering lemmas -/

theorem digitChar_toNat_sub {d : Nat} (h : d < 10) :
    (Nat.digitChar d).toNat - 48 = d := by
  revert h; revert d; decide

theorem decVal_append_singleton (xs : ZStr) (c : Char) :
    decVal (xs ++ [c]) = 10 * decVal xs + (c.toNat - 48) := by
  simp [decVal, List.foldl_append]

theorem natDecimalAux_decVal : ∀ (fuel n : Nat), n ≤ fuel → n ≠ 0 →
    decVal (natDecimalAux fuel n) = n
  | 0, n, hle, hne => by omega
  | fuel + 1, n, hle, hne => by
    rw [natDecimalAux, if_neg hne, decVal_append_singleton]
    have h10 : n % 10 < 10 := Nat.mod_lt _ (by norm_num)
    rw [digitChar_toNat_sub h10]
    by_cases hq : n / 10 = 0
    · rw [hq]
      have : decVal (natDecimalAux fuel 0) = 0 := by
        cases fuel <;> simp [natDecimalAux, decVal]
      rw [this]
      omega
    · have hlt : n / 10 < n := Nat.div_lt_self (by omega) (by norm_num)
      rw [natDecimalAux_decVal fuel (n / 10) (by omega) hq]
      omega

theorem natDecimal_inj {m n : Nat} (h : natDecimal m = natDecimal n) : m = n := by
  by_cases hm : m = 0 <;> by_cases hn : n = 0
  · omega
  · exfalso
    rw [natDecimal, natDecimal, if_pos hm, if_neg hn] at h
    have := natDecimalAux_decVal n n le_rfl hn
    rw [← h] at this
    simp [decVal] at this
    omega
  · exfalso
    rw [natDecimal, natDecimal, if_neg hm, if_pos hn] at h
    have := natDecimalAux_decVal m m le_rfl hm
    rw [h] at this
    simp [decVal] at this
    omega
  · have h1 := natDecimalAux_decVal m m le_rfl hm
    have h2 := natDecimalAux_decVal n n le_rfl hn
    rw [natDecimal, natDecimal, if_neg hm, if_neg hn] at h
    rw [h] at h1
    omega

theorem natDecimalAux_digits : ∀ (fuel n : Nat), DigitStr (natDecimalAux fuel n)
  | 0, _ => digitStr_nil
  | fuel + 1, n => by
    rw [natDecimalAux]
    by_cases hn : n = 0
    · simp [hn, digitStr_nil]
    · rw [if_neg hn]
      exact digitStr_append (natDecimalAux_digits fuel (n / 10))
        (digitStr_digitChar (Nat.mod_lt _ (by norm_num)))

theorem natDecimal_digits (n : Nat) : DigitStr (natDecimal n) := by
  rw [natDecimal]
  by_cases hn : n = 0
  · simp only [if_pos hn]
    exact digitStr_digitChar (d := 0) (by norm_num)
  · rw [if_neg hn]
    exact natDecimalAux_digits n n

/-! ### Chunk identifier lemmas -/

theorem underscore_mem_chunkId (Q : ZStr) (i : Nat) : '_' ∈ chunkId Q i := by
  simp [chunkId]

theorem chunkId_ne_digitStr {k : ZStr} (h : DigitStr k) (Q : ZStr) (i : Nat) :
    chunkId Q i ≠ k := by
  intro heq
  exact underscore_not_digitStr h (heq ▸ underscore_mem_chunkId Q i)

theorem ownerOf_append_underscore (A B : ZStr) (h : '_' ∉ A) :
    ownerOf (A ++ '_' :: B) = A := by
  induction A with
  | nil => simp [ownerOf, List.takeWhile]
  | cons c A ih =>
    have hc : ¬c = '_' := fun hc => h (by simp [hc])
    have hA : '_' ∉ A := fun hA => h (by simp [hA])
    simp only [List.cons_append, ownerOf, List.takeWhile_cons]
    simp only [ownerOf] at ih
    simp [hc, ih hA]

theorem split_underscore_unique {P A X Y : ZStr} (hP : '_' ∉ P)
    (hA : '_' ∉ A) (h : P ++ '_' :: X = A ++ '_' :: Y) : P = A ∧ X = Y := by
  have h1 : ownerOf (P ++ '_' :: X) = P := ownerOf_append_underscore P X hP
  have h2 : ownerOf (A ++ '_' :: Y) = A := ownerOf_append_underscore A Y hA
  rw [h] at h1
  have hPA : P = A := h1.symm.trans h2
  subst hPA
  refine ⟨rfl, ?_⟩
  have h2 := List.append_cancel_left h
  injection h2

theorem exists_first_underscore {Q : ZStr} (h : '_' ∈ Q) :
    ∃ A B, Q = A ++ '_' :: B ∧ '_' ∉ A := by
  induction Q with
  | nil => simp at h
  | cons c Q ih =>
    by_cases hc : c = '_'
    · exact ⟨[], Q, by simp [hc], by simp⟩
    · have : '_' ∈ Q := by
        rcases List.mem_cons.1 h with h1 | h1
        · exact absurd h1.symm hc
        · exact h1
      obtain ⟨A, B, rfl, hA⟩ := ih this
      refine ⟨c :: A, B, by simp, ?_⟩
      intro hmem
      rcases List.mem_cons.1 hmem with h1 | h1
      · exact hc h1.symm
      · exact hA h1

theorem chunkId_inj {P Q : ZStr} {i j : Nat} (hP : '_' ∉ P)
    (h : chunkId P i = chunkId Q j) : P = Q ∧ i = j := by
  by_cases hQ : '_' ∈ Q
  · exfalso
    obtain ⟨A, B, rfl, hA⟩ := exists_first_underscore hQ
    rw [chunkId, chunkId, List.append_assoc, List.cons_append] at h
    have := split_underscore_unique hP hA h
    exact underscore_not_digitStr (natDecimal_digits i)
      (this.2 ▸ List.mem_append.2 (Or.inr (by simp)))
  · have := split_underscore_unique hP hQ h
    exact ⟨this.1, natDecimal_inj this.2⟩

theorem ownerOf_digitStr {k : ZStr} (h : DigitStr k) : ownerOf k = k := by
  induction k with
  | nil => rfl
  | cons c k ih =>
    have hc : ¬c = '_' := by
      intro hc
      exact underscore_not_digitStr h (by simp [hc])
    have hk : DigitStr k := fun d hd => h d (by simp [hd])
    simp only [ownerOf, List.takeWhile_cons]
    simp only [ownerOf] at ih
    simp [hc, ih hk]

theorem ownerOf_chunkId {Q : ZStr} (h : '_' ∉ Q) (i : Nat) :
    ownerOf (chunkId Q i) = Q :=
  ownerOf_append_underscore Q (natDecimal i) h

/-! ### Chunk population sum and identifier set lemmas -/

theorem valueSum_nil (pp : PrefixPopulation) (v : ZStr) :
    valueSum pp [] v = 0 := rfl

theorem valueSum_cons (pp : PrefixPopulation) (kv : ZStr × ZStr)
    (l : List (ZStr × ZStr)) (v : ZStr) :
    valueSum pp (kv :: l) v =
      (if kv.2 = v then pp.pop kv.1 else 0) + valueSum pp l v := by
  by_cases h : kv.2 = v <;> simp [valueSum, List.filter_cons, h]

theorem valueSum_append (pp : PrefixPopulation) (a b : List (ZStr × ZStr))
    (v : ZStr) : valueSum pp (a ++ b) v = valueSum pp a v + valueSum pp b v := by
  simp [valueSum, List.filter_append]

theorem valueSum_eq_zero {pp : PrefixPopulation} {l : List (ZStr × ZStr)}
    {v : ZStr} (h : ∀ kv ∈ l, kv.2 ≠ v) : valueSum pp l v = 0 := by
  induction l with
  | nil => rfl
  | cons kv l ih =>
    rw [valueSum_cons, if_neg (h kv (by simp)), ih fun kv2 h2 => h kv2 (by simp [h2])]

theorem idsOf_nil : idsOf [] = ∅ := rfl

theorem idsOf_cons (kv : ZStr × ZStr) (l : List (ZStr × ZStr)) :
    idsOf (kv :: l) = insert kv.2 (idsOf l) := by
  simp [idsOf]

theorem idsOf_append (a b : List (ZStr × ZStr)) :
    idsOf (a ++ b) = idsOf a ∪ idsOf b := by
  simp [idsOf]

theorem mem_idsOf {v : ZStr} {l : List (ZStr × ZStr)} :
    v ∈ idsOf l ↔ ∃ kv ∈ l, kv.2 = v := by
  simp [idsOf]

theorem idsOf_card_pos {l : List (ZStr × ZStr)} (h : l ≠ []) :
    0 < (idsOf l).card := by
  cases l with
  | nil => exact absurd rfl h
  | cons kv l =>
    rw [idsOf_cons]
    exact Finset.card_pos.2 ⟨kv.2, Finset.mem_insert_self _ _⟩

/-! ### Query loop lemmas -/

theorem chunkForLoop_total (m : List (ZStr × ZStr)) (zip : ZStr) :
    ∀ ks, (∀ iRev ∈ ks, ZIP_CODE_LENGTH - iRev ≤ zip.length) →
    ∃ cid, chunkForLoop m zip ks = .ok cid
  | [], _ => ⟨[], rfl⟩
  | iRev :: rest, h => by
    rw [chunkForLoop]
    rw [if_pos (h iRev (by simp))]
    cases halGet : alGet m (zip.take (ZIP_CODE_LENGTH - iRev)) with
    | some cid => exact ⟨cid, rfl⟩
    | none => exact chunkForLoop_total m zip rest fun i hi => h i (by simp [hi])

theorem chunkForLoop_step_miss (m : List (ZStr × ZStr)) (zip : ZStr)
    (iRev : Nat) (rest : List Nat) (hle : ZIP_CODE_LENGTH - iRev ≤ zip.length)
    (hmiss : alGet m (zip.take (ZIP_CODE_LENGTH - iRev)) = none) :
    chunkForLoop m zip (iRev :: rest) = chunkForLoop m zip rest := by
  rw [chunkForLoop]
  rw [if_pos hle, hmiss]

theorem chunkForLoop_step_hit (m : List (ZStr × ZStr)) (zip : ZStr)
    (iRev : Nat) (rest : List Nat) (cid : ZStr)
    (hle : ZIP_CODE_LENGTH - iRev ≤ zip.length)
    (hhit : alGet m (zip.take (ZIP_CODE_LENGTH - iRev)) = some cid) :
    chunkForLoop m zip (iRev :: rest) = .ok cid := by
  rw [chunkForLoop]
  rw [if_pos hle, hhit]

theorem chunkForLoop_hit (m : List (ZStr × ZStr)) (zip : ZStr) :
    ∀ ks, (∀ iRev ∈ ks, ZIP_CODE_LENGTH - iRev ≤ zip.length) →
    (∃ iRev ∈ ks, (alGet m (zip.take (ZIP_CODE_LENGTH - iRev))).isSome) →
    ∃ i cid, i ≤ ZIP_CODE_LENGTH ∧ alGet m (zip.take i) = some cid ∧
      chunkForLoop m zip ks = .ok cid
  | [], _, hex => by simp at hex
  | iRev :: rest, h, hex => by
    cases halGet : alGet m (zip.take (ZIP_CODE_LENGTH - iRev)) with
    | some cid =>
      exact ⟨ZIP_CODE_LENGTH - iRev, cid, by omega, halGet,
        chunkForLoop_step_hit m zip iRev rest cid (h iRev (by simp)) halGet⟩
    | none =>
      obtain ⟨i2, hi2, hsome⟩ := hex
      rcases List.mem_cons.1 hi2 with h1 | h1
      · subst h1
        rw [halGet] at hsome
        simp at hsome
      · obtain ⟨i, cid, hile, hget, hloop⟩ :=
          chunkForLoop_hit m zip rest (fun i hi => h i (by simp [hi]))
            ⟨i2, h1, hsome⟩
        exact ⟨i, cid, hile, hget,
          (chunkForLoop_step_miss m zip iRev rest (h iRev (by simp)) halGet) ▸ hloop⟩

theorem chunkForLoop_take (m : List (ZStr × ZStr)) (zip : ZStr)
    (h5 : ZIP_CODE_LENGTH ≤ zip.length) :
    ∀ ks, (∀ iRev ∈ ks, 0 < iRev ∨ iRev = 0) →
    chunkForLoop m zip ks = chunkForLoop m (zip.take ZIP_CODE_LENGTH) ks
  | [], _ => rfl
  | iRev :: rest, _ => by
    have hi : ZIP_CODE_LENGTH - iRev ≤ ZIP_CODE_LENGTH := by omega
    have hlen2 : (zip.take ZIP_CODE_LENGTH).length = ZIP_CODE_LENGTH := by
      simp [List.length_take]
      omega
    have htake : (zip.take ZIP_CODE_LENGTH).take (ZIP_CODE_LENGTH - iRev) =
        zip.take (ZIP_CODE_LENGTH - iRev) := by
      rw [List.take_take]
      congr 1
      omega
    rw [chunkForLoop, chunkForLoop]
    rw [if_pos (by omega), if_pos (by rw [hlen2]; omega), htake]
    cases halGet : alGet m (zip.take (ZIP_CODE_LENGTH - iRev)) with
    | some cid => rfl
    | none => exact chunkForLoop_take m zip h5 rest fun i _ => by omega

/-! ### Claims about the query path -/

/-- Claim C3: for every digit-string code of exactly ZIP_CODE_LENGTH
characters, chunk_for is total: it neither panics nor returns an error, for
any classifier, hence also for codes absent from the population data. -/
theorem claim_C3_chunk_for_total (c : Classifier) (zip : ZStr)
    (hd : DigitStr zip) (hlen : zip.length = ZIP_CODE_LENGTH) :
    ∃ cid, Classifier.chunk_for c zip = .ok cid :=
  chunkForLoop_total c.chunk_id_for_pfx zip _ fun _ _ => by omega

theorem claim_C3_witness :
    DigitStr ['9', '9', '9', '9', '9'] ∧
    (['9', '9', '9', '9', '9'] : ZStr).length = ZIP_CODE_LENGTH ∧
    ∃ cid, Classifier.chunk_for ⟨1, []⟩ ['9', '9', '9', '9', '9'] = .ok cid :=
  ⟨by decide, by decide,
    claim_C3_chunk_for_total ⟨1, []⟩ ['9', '9', '9', '9', '9'] (by decide) (by decide)⟩

/-- Claim C4: on a code shorter than ZIP_CODE_LENGTH the source promises a
typed invalid-input error, but the body of chunk_for slices zip with an
out-of-range upper bound on its very first iteration, which is a panic, for
every classifier.  This theorem evaluates the code at such inputs. -/
theorem claim_C4_short_code_panics (c : Classifier) (zip : ZStr)
    (h : zip.length < ZIP_CODE_LENGTH) :
    Classifier.chunk_for c zip = .panicked := by
  rw [Classifier.chunk_for]
  rw [show List.range (ZIP_CODE_LENGTH + 1) = 0 :: [1, 2, 3, 4, 5] from rfl]
  rw [chunkForLoop]
  rw [if_neg (by omega)]

theorem claim_C4_witness :
    (['1', '2', '3'] : ZStr).length < ZIP_CODE_LENGTH ∧
    Classifier.chunk_for ⟨1, [([], ['_', '0'])]⟩ ['1', '2', '3'] = .panicked :=
  ⟨by decide, claim_C4_short_code_panics ⟨1, [([], ['_', '0'])]⟩ ['1', '2', '3'] (by decide)⟩

theorem chunkForLoop_first_hit (m : List (ZStr × ZStr)) (zip : ZStr)
    (j : Nat) (cid : ZStr) (hhit : alGet m (zip.take j) = some cid) :
    ∀ ks, (∀ iRev ∈ ks, ZIP_CODE_LENGTH - iRev ≤ zip.length) →
    (∀ iRev ∈ ks, j < ZIP_CODE_LENGTH - iRev →
      alGet m (zip.take (ZIP_CODE_LENGTH - iRev)) = none) →
    j ∈ ks.map (fun iRev => ZIP_CODE_LENGTH - iRev) →
    List.Pairwise (fun a b => ZIP_CODE_LENGTH - b ≤ ZIP_CODE_LENGTH - a) ks →
    chunkForLoop m zip ks = .ok cid
  | [], _, _, hmem, _ => by simp at hmem
  | iRev :: rest, hle, hmiss, hmem, hsort => by
    by_cases hij : ZIP_CODE_LENGTH - iRev = j
    · exact chunkForLoop_step_hit m zip iRev rest cid (hle iRev (by simp))
        (by rw [hij]; exact hhit)
    · have hrest : j ∈ rest.map (fun iRev => ZIP_CODE_LENGTH - iRev) := by
        rcases List.mem_map.1 hmem with ⟨b, hb, hbj⟩
        rcases List.mem_cons.1 hb with h1 | h1
        · exact absurd (h1 ▸ hbj) hij
        · exact List.mem_map.2 ⟨b, h1, hbj⟩
      by_cases hgt : j < ZIP_CODE_LENGTH - iRev
      · rw [chunkForLoop_step_miss m zip iRev rest (hle iRev (by simp))
          (hmiss iRev (by simp) hgt)]
        exact chunkForLoop_first_hit m zip j cid hhit rest
          (fun i hi => hle i (by simp [hi]))
          (fun i hi hgt2 => hmiss i (by simp [hi]) hgt2) hrest hsort.of_cons
      · exfalso
        rcases List.mem_map.1 hrest with ⟨b, hb, hbj⟩
        have := (List.pairwise_cons.1 hsort).1 b hb
        omega

/-- Claim C2: for a code of exactly ZIP_CODE_LENGTH characters, chunk_for
checks the mapping for the first i characters for i from ZIP_CODE_LENGTH down
to 0 and returns the first (longest) match; in particular a longer matching
prefix beats any shorter one, and if no prefix of any length is a key the
result is the empty chunk identifier. -/
theorem claim_C2_longest_match (c : Classifier) (zip : ZStr)
    (hlen : zip.length = ZIP_CODE_LENGTH) :
    ((∀ k, k ≤ ZIP_CODE_LENGTH → alGet c.chunk_id_for_pfx (zip.take k) = none) →
      Classifier.chunk_for c zip = .ok []) ∧
    (∀ j cid, j ≤ ZIP_CODE_LENGTH →
      alGet c.chunk_id_for_pfx (zip.take j) = some cid →
      (∀ k, j < k → k ≤ ZIP_CODE_LENGTH →
        alGet c.chunk_id_for_pfx (zip.take k) = none) →
      Classifier.chunk_for c zip = .ok cid) := by
  constructor
  · intro hmiss
    rw [Classifier.chunk_for]
    rw [show List.range (ZIP_CODE_LENGTH + 1) = [0, 1, 2, 3, 4, 5] from rfl]
    rw [chunkForLoop_step_miss _ _ _ _ (by omega) (hmiss _ (by omega)),
      chunkForLoop_step_miss _ _ _ _ (by omega) (hmiss _ (by omega)),
      chunkForLoop_step_miss _ _ _ _ (by omega) (hmiss _ (by omega)),
      chunkForLoop_step_miss _ _ _ _ (by omega) (hmiss _ (by omega)),
      chunkForLoop_step_miss _ _ _ _ (by omega) (hmiss _ (by omega)),
      chunkForLoop_step_miss _ _ _ _ (by omega) (hmiss _ (by omega))]
    rfl
  · intro j cid hj hhit hmiss
    rw [Classifier.chunk_for]
    exact chunkForLoop_first_hit _ zip j cid hhit _ (fun i _ => by omega)
      (fun i hi hgt => hmiss _ hgt (by omega))
      (by rw [show List.range (ZIP_CODE_LENGTH + 1) = [0, 1, 2, 3, 4, 5] from rfl]
          have hj5 : j ≤ 5 := hj
          interval_cases j <;> decide)
      (by rw [show List.range (ZIP_CODE_LENGTH + 1) = [0, 1, 2, 3, 4, 5] from rfl]
          decide)

theorem claim_C2_witness :
    (['7', '7', '7', '7', '7'] : ZStr).length = ZIP_CODE_LENGTH ∧
    (∀ j cid, j ≤ ZIP_CODE_LENGTH →
      alGet [(['7', '7'], ['a']), (['7', '7', '7', '7', '7'], ['b'])]
        ((['7', '7', '7', '7', '7'] : ZStr).take j) = some cid →
      (∀ k, j < k → k ≤ ZIP_CODE_LENGTH →
        alGet [(['7', '7'], ['a']), (['7', '7', '7', '7', '7'], ['b'])]
          ((['7', '7', '7', '7', '7'] : ZStr).take k) = none) →
      Classifier.chunk_for ⟨1, [(['7', '7'], ['a']), (['7', '7', '7', '7', '7'], ['b'])]⟩
        ['7', '7', '7', '7', '7'] = .ok cid) ∧
    Classifier.chunk_for ⟨1, [(['7', '7'], ['a']), (['7', '7', '7', '7', '7'], ['b'])]⟩
      ['7', '7', '7', '7', '7'] = .ok ['b'] :=
  ⟨by decide,
   (claim_C2_longest_match
      ⟨1, [(['7', '7'], ['a']), (['7', '7', '7', '7', '7'], ['b'])]⟩
      ['7', '7', '7', '7', '7'] (by decide)).2,
   (claim_C2_longest_match
      ⟨1, [(['7', '7'], ['a']), (['7', '7', '7', '7', '7'], ['b'])]⟩
      ['7', '7', '7', '7', '7'] (by decide)).2 5 ['b'] (by decide) (by decide)
      (fun k h1 h2 => absurd h2 (by simp only [ZIP_CODE_LENGTH]; omega))⟩

/-- Claim C7: construction is deterministic: two classifiers built from the
same rows with the same target produce the same chunk for every code. -/
theorem claim_C7_deterministic (rows : List (ZStr × Nat)) (t : Nat)
    (c1 c2 : Classifier) (h1 : Classifier.new rows t = .ok c1)
    (h2 : Classifier.new rows t = .ok c2) :
    ∀ zip, Classifier.chunk_for c1 zip = Classifier.chunk_for c2 zip := by
  rw [h1] at h2
  injection h2 with h
  rw [h]
  intro zip
  rfl

theorem claim_C7_witness :
    Classifier.new [(['0', '0', '0', '0', '0'], 5)] 10 = .ok ⟨10, [([], [])]⟩ ∧
    ∀ zip, Classifier.chunk_for ⟨10, [([], [])]⟩ zip =
      Classifier.chunk_for ⟨10, [([], [])]⟩ zip :=
  ⟨by decide,
    claim_C7_deterministic [(['0', '0', '0', '0', '0'], 5)] 10 _ _ (by decide) (by decide)⟩

/-- Claim C10: a code longer than ZIP_CODE_LENGTH neither errors nor panics:
the query only inspects prefixes of length at most ZIP_CODE_LENGTH, so the
result equals the result for the first ZIP_CODE_LENGTH characters. -/
theorem claim_C10_long_code (c : Classifier) (zip : ZStr)
    (h : ZIP_CODE_LENGTH < zip.length) :
    Classifier.chunk_for c zip = Classifier.chunk_for c (zip.take ZIP_CODE_LENGTH) ∧
    ∃ cid, Classifier.chunk_for c zip = .ok cid := by
  constructor
  · exact chunkForLoop_take c.chunk_id_for_pfx zip (by omega) _ fun i _ => by omega
  · exact chunkForLoop_total c.chunk_id_for_pfx zip _ fun _ _ => by omega

theorem claim_C10_witness :
    ZIP_CODE_LENGTH < (['1', '2', '3', '4', '5', '6', '7'] : ZStr).length ∧
    (Classifier.chunk_for ⟨1, []⟩ ['1', '2', '3', '4', '5', '6', '7'] =
      Classifier.chunk_for ⟨1, []⟩
        ((['1', '2', '3', '4', '5', '6', '7'] : ZStr).take ZIP_CODE_LENGTH) ∧
     ∃ cid, Classifier.chunk_for ⟨1, []⟩ ['1', '2', '3', '4', '5', '6', '7'] = .ok cid) :=
  ⟨by decide, claim_C10_long_code ⟨1, []⟩ ['1', '2', '3', '4', '5', '6', '7'] (by decide)⟩

/-! ### Sum helpers -/

theorem sum_map_zero2 {β : Type} (l : List β) : (l.map (fun _ => (0 : Nat))).sum = 0 := by
  induction l <;> simp_all

theorem sum_map_add2 {β : Type} (l : List β) (f g : β → Nat) :
    (l.map (fun b => f b + g b)).sum = (l.map f).sum + (l.map g).sum := by
  induction l with
  | nil => simp
  | cons b l ih => simp [ih]; omega

theorem sum_map_eq_zero2 {β : Type} {l : List β} {f : β → Nat}
    (h : ∀ b ∈ l, f b = 0) : (l.map f).sum = 0 := by
  induction l with
  | nil => simp
  | cons b l ih =>
    simp [h b (by simp), ih fun b2 hb => h b2 (by simp [hb])]

theorem sum_single_hit {β : Type} [DecidableEq β] {l : List β} {b : β}
    (hb : b ∈ l) (hnodup : l.Nodup) (v : Nat) :
    (l.map (fun x => if x = b then v else 0)).sum = v := by
  induction l with
  | nil => simp at hb
  | cons a l ih =>
    rcases List.mem_cons.1 hb with h1 | h1
    · subst h1
      have : ∀ x ∈ l, (fun x => if x = b then v else 0) x = 0 := by
        intro x hx
        have : x ≠ b := fun he => (List.nodup_cons.1 hnodup).1 (he ▸ hx)
        simp [this]
      simp [sum_map_eq_zero2 this]
    · have hab : ¬a = b := by
        intro he
        exact (List.nodup_cons.1 hnodup).1 (he ▸ h1)
      simp only [List.map_cons, List.sum_cons, if_neg hab, Nat.zero_add]
      exact ih h1 (List.nodup_cons.1 hnodup).2

theorem list_sum_swap {α β : Type} (f : α → β → Nat) : ∀ (l1 : List α) (l2 : List β),
    (l1.map (fun a => (l2.map (f a)).sum)).sum =
      (l2.map (fun b => (l1.map (fun a => f a b)).sum)).sum := by
  intro l1
  induction l1 with
  | nil => intro l2; simp [sum_map_zero2]
  | cons a l1 ih =>
    intro l2
    simp only [List.map_cons, List.sum_cons, ih l2]
    rw [← sum_map_add2]

/-! ### Population table characterization -/

theorem pop_fold (pfx : ZStr) (h : pfx.length ≤ ZIP_CODE_LENGTH) :
    ∀ (rows : List (ZStr × Nat)) (maps : Nat → List (ZStr × Nat)),
    (alGet ((rows.foldl (fun maps r => bumpRow maps r.1 r.2) maps) pfx.length) pfx).getD 0
      = (alGet (maps pfx.length) pfx).getD 0 +
        (rows.map (fun r => if r.1.take pfx.length = pfx then r.2 else 0)).sum
  | [], maps => by simp
  | r :: rows, maps => by
    rw [List.foldl_cons, pop_fold pfx h rows]
    simp only [bumpRow, if_pos h]
    rw [alGet_addPop_getD]
    have : (if pfx = r.1.take pfx.length then r.2 else 0) =
        (if r.1.take pfx.length = pfx then r.2 else 0) := by
      by_cases he : pfx = r.1.take pfx.length
      · rw [if_pos he, if_pos he.symm]
      · rw [if_neg he, if_neg fun h2 => he h2.symm]
    simp only [List.map_cons, List.sum_cons]
    omega

theorem pop_new (rows : List (ZStr × Nat)) (pfx : ZStr)
    (h : pfx.length ≤ ZIP_CODE_LENGTH) :
    (PrefixPopulation.new rows).pop pfx =
      (rows.map (fun r => if r.1.take pfx.length = pfx then r.2 else 0)).sum := by
  rw [PrefixPopulation.pop, PrefixPopulation.new]
  rw [pop_fold pfx h rows]
  simp [alGet]

theorem row_child_split (pfx code : ZStr) (v : Nat) (hd : DigitStr code)
    (hlen5 : code.length = ZIP_CODE_LENGTH) (hplen : pfx.length < ZIP_CODE_LENGTH) :
    (if code.take pfx.length = pfx then v else 0) =
      ((List.range 10).map
        (fun d => if code.take (pfx.length + 1) = pfx ++ [Nat.digitChar d]
          then v else 0)).sum := by
  have hn : pfx.length < code.length := by omega
  have htake : code.take (pfx.length + 1) =
      code.take pfx.length ++ [code.get ⟨pfx.length, hn⟩] := by
    rw [List.take_succ]
    congr 1
    rw [List.getElem?_eq_getElem hn]
    rfl
  obtain ⟨d0, hd0, hc⟩ := exists_digit_of_mem hd (List.get_mem code pfx.length hn)
  by_cases hp : code.take pfx.length = pfx
  · rw [if_pos hp]
    have hterm : ∀ d ∈ List.range 10,
        (if code.take (pfx.length + 1) = pfx ++ [Nat.digitChar d] then v else 0) =
        (if d = d0 then v else 0) := by
      intro d hdr
      rw [htake, hp, hc]
      by_cases hdd : d = d0
      · subst hdd
        simp
      · rw [if_neg hdd, if_neg]
        intro heq
        have h1 : Nat.digitChar d0 = Nat.digitChar d := by
          have := List.append_cancel_left heq
          injection this
        exact hdd (digitChar_inj (List.mem_range.1 hdr) hd0 h1.symm)
    rw [List.map_congr_left hterm,
      sum_single_hit (List.mem_range.2 hd0) (List.nodup_range 10) v]
  · rw [if_neg hp]
    symm
    apply sum_map_eq_zero2
    intro d _
    rw [if_neg]
    intro heq
    rw [htake] at heq
    exact hp (List.append_inj heq (by simp [List.length_take]; omega)).1

/-- Claim C6: for rows whose codes are digit strings of exactly
ZIP_CODE_LENGTH characters, the table satisfies: the population of every
shorter prefix is the sum of the populations of its ten digit extensions, the
population of the empty prefix is the total population, and an absent prefix
has population 0. -/
theorem claim_C6_table_invariant (rows : List (ZStr × Nat))
    (hrows : ∀ r ∈ rows, DigitStr r.1 ∧ r.1.length = ZIP_CODE_LENGTH) :
    (∀ pfx : ZStr, pfx.length < ZIP_CODE_LENGTH →
      (PrefixPopulation.new rows).pop pfx =
        ((List.range 10).map
          (fun d => (PrefixPopulation.new rows).pop (pfx ++ [Nat.digitChar d]))).sum) ∧
    (PrefixPopulation.new rows).pop [] = (rows.map Prod.snd).sum ∧
    (∀ pfx : ZStr, alGet ((PrefixPopulation.new rows).maps pfx.length) pfx = none →
      (PrefixPopulation.new rows).pop pfx = 0) := by
  refine ⟨?_, ?_, ?_⟩
  · intro pfx hlen
    rw [pop_new rows pfx (by omega)]
    have hlen2 : ∀ d : Nat, (pfx ++ [Nat.digitChar d]).length = pfx.length + 1 := by
      simp
    have hstep1 : ((List.range 10).map
        (fun d => (PrefixPopulation.new rows).pop (pfx ++ [Nat.digitChar d]))).sum =
        ((List.range 10).map (fun d => (rows.map (fun r =>
          if r.1.take (pfx.length + 1) = pfx ++ [Nat.digitChar d]
          then r.2 else 0)).sum)).sum := by
      apply congrArg List.sum
      apply List.map_congr_left
      intro d _
      rw [pop_new rows _ (by rw [hlen2]; omega), hlen2 d]
    rw [hstep1, list_sum_swap]
    apply congrArg List.sum
    apply List.map_congr_left
    intro r hr
    exact row_child_split pfx r.1 r.2 (hrows r hr).1 (hrows r hr).2 hlen
  · rw [pop_new rows [] (by simp [ZIP_CODE_LENGTH])]
    simp
  · intro pfx hnone
    rw [PrefixPopulation.pop, hnone]
    rfl

theorem claim_C6_witness :
    (∀ r ∈ ([(['1', '2', '3', '4', '5'], 7)] : List (ZStr × Nat)),
      DigitStr r.1 ∧ r.1.length = ZIP_CODE_LENGTH) ∧
    ((∀ pfx : ZStr, pfx.length < ZIP_CODE_LENGTH →
      (PrefixPopulation.new [(['1', '2', '3', '4', '5'], 7)]).pop pfx =
        ((List.range 10).map
          (fun d => (PrefixPopulation.new [(['1', '2', '3', '4', '5'], 7)]).pop
            (pfx ++ [Nat.digitChar d]))).sum) ∧
    (PrefixPopulation.new [(['1', '2', '3', '4', '5'], 7)]).pop [] =
      (([(['1', '2', '3', '4', '5'], 7)] : List (ZStr × Nat)).map Prod.snd).sum ∧
    (∀ pfx : ZStr,
      alGet ((PrefixPopulation.new [(['1', '2', '3', '4', '5'], 7)]).maps pfx.length)
        pfx = none →
      (PrefixPopulation.new [(['1', '2', '3', '4', '5'], 7)]).pop pfx = 0)) :=
  ⟨by decide, claim_C6_table_invariant [(['1', '2', '3', '4', '5'], 7)] (by decide)⟩

/-! ### Builder characterization -/

theorem lookup_ok {pp : PrefixPopulation} {x : ZStr} {v : Nat}
    (h : pp.lookup x = .ok v) : v = pp.pop x ∧ x.length ≤ ZIP_CODE_LENGTH := by
  rw [PrefixPopulation.lookup] at h
  by_cases hl : ZIP_CODE_LENGTH < x.length
  · rw [if_pos hl] at h
    exact absurd h (by intro hh; injection hh)
  · rw [if_neg hl] at h
    injection h with h2
    exact ⟨h2.symm, by omega⟩

theorem lookup_short {pp : PrefixPopulation} {x : ZStr}
    (h : x.length ≤ ZIP_CODE_LENGTH) : pp.lookup x = .ok (pp.pop x) := by
  rw [PrefixPopulation.lookup, if_neg (by omega)]

theorem groupLeftovers_char (pp : PrefixPopulation) (t : Nat) (P : ZStr)
    (hP : '_' ∉ P) :
    ∀ (ls : List ZStr) (i0 c0 : Nat) (acc m : List (ZStr × ZStr)),
    c0 ≤ t →
    groupLeftovers pp t P ls i0 c0 acc = .ok m →
    ∃ nw, m = nw ++ acc ∧
      nw.map Prod.fst = ls.reverse ∧
      (∀ kv ∈ nw, ∃ j, i0 ≤ j ∧ kv.2 = chunkId P j) ∧
      (∀ i, (if i = i0 then c0 else 0) + valueSum pp nw (chunkId P i) ≤ t) ∧
      idsOf nw = (binIdsFrom t i0 c0 (ls.map pp.pop)).image (chunkId P) ∧
      (∀ x ∈ ls, pp.pop x < t)
  | [], i0, c0, acc, m, hc0, hok => by
    rw [groupLeftovers] at hok
    injection hok with hm
    refine ⟨[], by simp [hm], by simp, by simp, ?_, by simp [binIdsFrom, idsOf_nil], by simp⟩
    intro i
    by_cases hi : i = i0 <;> simp [hi, valueSum_nil] <;> omega
  | child :: rest, i0, c0, acc, m, hc0, hok => by
    rw [groupLeftovers] at hok
    split at hok
    · exact absurd hok (by intro hh; injection hh)
    · rename_i childPop hlk
      obtain ⟨hpop, hlen⟩ := lookup_ok hlk
      by_cases hlt : childPop < t
      · rw [if_pos hlt] at hok
        simp only at hok
        set idx := if t < c0 + childPop then i0 + 1 else i0 with hidx
        set carry := if t < c0 + childPop then 0 else c0 with hcarry
        have hcarry_le : carry + childPop ≤ t := by
          by_cases hov : t < c0 + childPop <;> simp [hcarry, hov] <;> omega
        obtain ⟨nw2, hm, hkeys, hjs, hbound, hids, hpops⟩ :=
          groupLeftovers_char pp t P hP rest idx (carry + childPop)
            ((child, chunkId P idx) :: acc) m hcarry_le hok
        have hidx_ge : i0 ≤ idx := by
          by_cases hov : t < c0 + childPop <;> simp [hidx, hov]
        refine ⟨nw2 ++ [(child, chunkId P idx)], by simp [hm], ?_, ?_, ?_, ?_, ?_⟩
        · simp [hkeys]
        · intro kv hkv
          rcases List.mem_append.1 hkv with h1 | h1
          · obtain ⟨j, hj1, hj2⟩ := hjs kv h1
            exact ⟨j, by omega, hj2⟩
          · simp at h1
            exact ⟨idx, hidx_ge, by rw [h1]⟩
        · intro i
          have hsum : valueSum pp (nw2 ++ [(child, chunkId P idx)]) (chunkId P i) =
              valueSum pp nw2 (chunkId P i) +
              (if idx = i then pp.pop child else 0) := by
            rw [valueSum_append, valueSum_cons, valueSum_nil]
            by_cases hii : idx = i
            · rw [if_pos (by rw [hii]), if_pos hii]
              simp
            · rw [if_neg (fun heq => hii (chunkId_inj hP heq).2), if_neg hii]
          rw [hsum]
          by_cases hov : t < c0 + childPop
          · have hidx1 : idx = i0 + 1 := by simp [hidx, hov]
            by_cases hi : i = idx
            · have := hbound idx
              rw [if_pos rfl] at this
              rw [hi, if_neg (by omega), if_pos rfl]
              simp [hcarry, hov] at this
              omega
            · by_cases hi0 : i = i0
              · have hz : valueSum pp nw2 (chunkId P i) = 0 := by
                  apply valueSum_eq_zero
                  intro kv hkv heq
                  obtain ⟨j, hj1, hj2⟩ := hjs kv hkv
                  have := (chunkId_inj hP (hj2 ▸ heq)).2
                  omega
                rw [hz, if_pos hi0, if_neg (fun hh => hi hh.symm)]
                omega
              · have := hbound i
                rw [if_neg (by omega)] at this
                rw [if_neg hi0, if_neg (fun hh => hi hh.symm)]
                omega
          · have hidx0 : idx = i0 := by simp [hidx, hov]
            by_cases hi : i = i0
            · have := hbound i
              rw [if_pos (by omega)] at this
              rw [if_pos hi, if_pos (by omega)]
              simp [hcarry, hov] at this
              omega
            · have := hbound i
              rw [if_neg (by omega)] at this
              rw [if_neg hi, if_neg (by omega)]
              omega
        · rw [idsOf_append, hids]
          have : idsOf [(child, chunkId P idx)] = {chunkId P idx} := by
            simp [idsOf]
          rw [this]
          rw [show (child :: rest).map pp.pop = pp.pop child :: rest.map pp.pop from rfl]
          rw [binIdsFrom]
          simp only [← hpop, ← hidx, ← hcarry]
          rw [Finset.image_insert]
          rw [Finset.union_comm, ← Finset.insert_eq]
        · intro x hx
          rcases List.mem_cons.1 hx with h1 | h1
          · rw [h1, ← hpop]; exact hlt
          · exact hpops x h1
      · rw [if_neg hlt] at hok
        exact absurd hok (by intro hh; injection hh)

theorem leftoverChildren_cons (pp : PrefixPopulation) (t : Nat) (P : ZStr)
    (d : Nat) (ds : List Nat) :
    leftoverChildren pp t P (d :: ds) =
      (if pp.pop (P ++ [Nat.digitChar d]) < t
        then (P ++ [Nat.digitChar d]) :: leftoverChildren pp t P ds
        else leftoverChildren pp t P ds) := by
  rw [leftoverChildren, List.filterMap_cons]
  by_cases h : pp.pop (P ++ [Nat.digitChar d]) < t
  · simp [h, leftoverChildren]
  · simp [h, leftoverChildren]

theorem childLoop_char (pp : PrefixPopulation) (t : Nat) (P : ZStr)
    (go : ZStr → List (ZStr × ZStr) → Except BuildPanic (List (ZStr × ZStr)))
    (hgo : ∀ ch acc m, DigitStr ch → go ch acc = .ok m →
      ∃ nw, m = nw ++ acc ∧ BuildOut pp t ch nw)
    (hP : DigitStr P) :
    ∀ (ds : List Nat) (acc : List (ZStr × ZStr)) (lefts : List ZStr)
      (m : List (ZStr × ZStr)) (lefts2 : List ZStr),
    (∀ d ∈ ds, d < 10) → ds.Nodup →
    childLoop pp t P go ds acc lefts = .ok (m, lefts2) →
    ∃ nw, m = nw ++ acc ∧
      lefts2 = lefts ++ leftoverChildren pp t P ds ∧
      ChildOut pp t P ds nw
  | [], acc, lefts, m, lefts2, _, _, hok => by
    rw [childLoop] at hok
    injection hok with hpair
    injection hpair with h1 h2
    refine ⟨[], by simp [h1.symm], by simp [h2.symm, leftoverChildren], ?_⟩
    exact {
      keyLead := by intro kv h; simp at h
      keyLen := by intro kv h; simp at h
      keyDigits := by intro kv h; simp at h
      keysNodup := by simp
      valShape := by intro kv h; simp at h
      groupBound := by intro Q i; rw [valueSum_nil]; omega
      recursedCover := by intro d hd; simp at hd
      lenOk := by intro h; exact absurd rfl h }
  | d :: ds, acc, lefts, m, lefts2, hd10, hnodup, hok => by
    simp only [childLoop] at hok
    split at hok
    · exact absurd hok (by intro hh; injection hh)
    · rename_i childPop hlk
      obtain ⟨hpop, hlenc⟩ := lookup_ok hlk
      have hdlt : d < 10 := hd10 d (by simp)
      have hdnotin : d ∉ ds := (List.nodup_cons.1 hnodup).1
      have hdsnodup : ds.Nodup := (List.nodup_cons.1 hnodup).2
      have hchildDigit : DigitStr (P ++ [Nat.digitChar d]) :=
        digitStr_append hP (digitStr_digitChar hdlt)
      have hPlen : P.length < ZIP_CODE_LENGTH := by
        simp at hlenc
        omega
      by_cases hge : t ≤ childPop
      · rw [if_pos hge] at hok
        split at hok
        · exact absurd hok (by intro hh; injection hh)
        · rename_i acc2 hgoeq
          obtain ⟨block, hacc2, hBO⟩ := hgo _ acc _ hchildDigit hgoeq
          subst hacc2
          obtain ⟨nw2, hm, hlefts, hCO⟩ :=
            childLoop_char pp t P go hgo hP ds (block ++ acc) lefts m lefts2
              (fun d2 h2 => hd10 d2 (by simp [h2])) hdsnodup hok
          have hnotlt : ¬pp.pop (P ++ [Nat.digitChar d]) < t := by omega
          refine ⟨nw2 ++ block, by rw [hm, List.append_assoc], ?_, ?_⟩
          · rw [hlefts, leftoverChildren_cons, if_neg hnotlt]
          · exact {
              keyLead := by
                intro kv hkv
                rcases List.mem_append.1 hkv with h1 | h1
                · obtain ⟨d2, hd2, hl, hp2⟩ := hCO.keyLead kv h1
                  exact ⟨d2, by simp [hd2], hl, hp2⟩
                · exact ⟨d, by simp, hBO.keyLead kv h1, by omega⟩
              keyLen := by
                intro kv hkv
                rcases List.mem_append.1 hkv with h1 | h1
                · exact hCO.keyLen kv h1
                · exact hBO.keyLen kv h1
              keyDigits := by
                intro kv hkv
                rcases List.mem_append.1 hkv with h1 | h1
                · exact hCO.keyDigits kv h1
                · exact hBO.keyDigits kv h1
              keysNodup := by
                rw [List.map_append, List.nodup_append]
                refine ⟨hCO.keysNodup, hBO.keysNodup, ?_⟩
                intro k hk1 hk2
                obtain ⟨kv1, hkv1, hkeq1⟩ := List.mem_map.1 hk1
                obtain ⟨kv2, hkv2, hkeq2⟩ := List.mem_map.1 hk2
                obtain ⟨d2, hd2, hl2, _⟩ := hCO.keyLead kv1 hkv1
                have hl : IsLead (P ++ [Nat.digitChar d]) kv1.1 := by
                  rw [hkeq1, ← hkeq2]
                  exact hBO.keyLead kv2 hkv2
                have := isLead_snoc_char hl2 hl
                exact hdnotin (digitChar_inj (hd10 d2 (by simp [hd2])) hdlt this ▸ hd2)
              valShape := by
                intro kv hkv
                rcases List.mem_append.1 hkv with h1 | h1
                · rcases hCO.valShape kv h1 with h2 | ⟨Q, i, hv, ⟨d2, hd2, hl2⟩, hdig, hql⟩
                  · exact Or.inl h2
                  · exact Or.inr ⟨Q, i, hv, ⟨d2, by simp [hd2], hl2⟩, hdig, hql⟩
                · rcases hBO.valShape kv h1 with h2 | ⟨Q, i, hv, hl2, hdig, hql⟩
                  · exact Or.inl h2
                  · exact Or.inr ⟨Q, i, hv, ⟨d, by simp, hl2⟩, hdig, hql⟩
              groupBound := by
                intro Q i
                rw [valueSum_append]
                by_cases hQd : IsLead (P ++ [Nat.digitChar d]) Q
                · have hz : valueSum pp nw2 (chunkId Q i) = 0 := by
                    apply valueSum_eq_zero
                    intro kv hkv heq
                    rcases hCO.valShape kv hkv with ⟨hvk, _⟩ |
                        ⟨Q2, i2, hval, ⟨d2, hd2, hl2⟩, hdig2, _⟩
                    · exact chunkId_ne_digitStr (hCO.keyDigits kv hkv) Q i
                        (heq ▸ hvk)
                    · have hQ2 : chunkId Q2 i2 = chunkId Q i := hval ▸ heq
                      have := chunkId_inj (underscore_not_digitStr hdig2) hQ2
                      rw [this.1] at hl2
                      have := isLead_snoc_char hl2 hQd
                      exact hdnotin
                        (digitChar_inj (hd10 d2 (by simp [hd2])) hdlt this ▸ hd2)
                  rw [hz]
                  have := hBO.groupBound Q i
                  omega
                · have hz : valueSum pp block (chunkId Q i) = 0 := by
                    apply valueSum_eq_zero
                    intro kv hkv heq
                    rcases hBO.valShape kv hkv with ⟨hvk, _⟩ |
                        ⟨Q2, i2, hval, hl2, hdig2, _⟩
                    · exact chunkId_ne_digitStr (hBO.keyDigits kv hkv) Q i
                        (heq ▸ hvk)
                    · have hQ2 : chunkId Q2 i2 = chunkId Q i := hval ▸ heq
                      have := chunkId_inj (underscore_not_digitStr hdig2) hQ2
                      rw [this.1] at hl2
                      exact hQd hl2
                  rw [hz]
                  have := hCO.groupBound Q i
                  omega
              recursedCover := by
                intro d2 hd2 hp2 z hz1 hz2 hz3
                rcases List.mem_cons.1 hd2 with h1 | h1
                · subst h1
                  obtain ⟨kv, hkv, hl⟩ := hBO.covers z hz1 hz2 hz3
                  exact ⟨kv, List.mem_append.2 (Or.inr hkv), hl⟩
                · obtain ⟨kv, hkv, hl⟩ := hCO.recursedCover d2 h1 hp2 z hz1 hz2 hz3
                  exact ⟨kv, List.mem_append.2 (Or.inl hkv), hl⟩
              lenOk := fun _ => hPlen }
      · rw [if_neg hge] at hok
        obtain ⟨nw2, hm, hlefts, hCO⟩ :=
          childLoop_char pp t P go hgo hP ds acc (lefts ++ [P ++ [Nat.digitChar d]])
            m lefts2 (fun d2 h2 => hd10 d2 (by simp [h2])) hdsnodup hok
        have hlt : pp.pop (P ++ [Nat.digitChar d]) < t := by omega
        refine ⟨nw2, hm, ?_, ?_⟩
        · rw [hlefts, leftoverChildren_cons, if_pos hlt]
          simp
        · exact {
            keyLead := by
              intro kv hkv
              obtain ⟨d2, hd2, hl, hp2⟩ := hCO.keyLead kv hkv
              exact ⟨d2, by simp [hd2], hl, hp2⟩
            keyLen := hCO.keyLen
            keyDigits := hCO.keyDigits
            keysNodup := hCO.keysNodup
            valShape := by
              intro kv hkv
              rcases hCO.valShape kv hkv with h2 | ⟨Q, i, hv, ⟨d2, hd2, hl2⟩, hdig, hql⟩
              · exact Or.inl h2
              · exact Or.inr ⟨Q, i, hv, ⟨d2, by simp [hd2], hl2⟩, hdig, hql⟩
            groupBound := hCO.groupBound
            recursedCover := by
              intro d2 hd2 hp2 z hz1 hz2 hz3
              rcases List.mem_cons.1 hd2 with h1 | h1
              · subst h1
                omega
              · exact hCO.recursedCover d2 h1 hp2 z hz1 hz2 hz3
            lenOk := fun _ => hPlen }

theorem isLead_len_eq {p s : ZStr} (h : IsLead p s) (hl : s.length ≤ p.length) :
    p = s := by
  obtain ⟨r, rfl⟩ := h
  simp at hl
  simp [hl]

theorem mem_leftoverChildren {pp : PrefixPopulation} {t : Nat} {P : ZStr}
    {ds : List Nat} {x : ZStr} :
    x ∈ leftoverChildren pp t P ds ↔
      ∃ d ∈ ds, pp.pop (P ++ [Nat.digitChar d]) < t ∧ x = P ++ [Nat.digitChar d] := by
  induction ds with
  | nil => simp [leftoverChildren]
  | cons d ds ih =>
    rw [leftoverChildren_cons]
    by_cases h : pp.pop (P ++ [Nat.digitChar d]) < t
    · rw [if_pos h]
      constructor
      · intro hx
        rcases List.mem_cons.1 hx with h1 | h1
        · exact ⟨d, by simp, h, h1⟩
        · obtain ⟨d2, hd2, hp2, hx2⟩ := ih.1 h1
          exact ⟨d2, by simp [hd2], hp2, hx2⟩
      · intro ⟨d2, hd2, hp2, hx2⟩
        rcases List.mem_cons.1 hd2 with h1 | h1
        · exact List.mem_cons.2 (Or.inl (by rw [hx2, h1]))
        · exact List.mem_cons.2 (Or.inr (ih.2 ⟨d2, h1, hp2, hx2⟩))
    · rw [if_neg h]
      constructor
      · intro hx
        obtain ⟨d2, hd2, hp2, hx2⟩ := ih.1 hx
        exact ⟨d2, by simp [hd2], hp2, hx2⟩
      · intro ⟨d2, hd2, hp2, hx2⟩
        rcases List.mem_cons.1 hd2 with h1 | h1
        · exact absurd (h1 ▸ hp2) h
        · exact ih.2 ⟨d2, h1, hp2, hx2⟩

theorem leftoverChildren_nodup (pp : PrefixPopulation) (t : Nat) (P : ZStr) :
    ∀ (ds : List Nat), (∀ d ∈ ds, d < 10) → ds.Nodup →
    (leftoverChildren pp t P ds).Nodup
  | [], _, _ => by simp [leftoverChildren]
  | d :: ds, hd10, hnodup => by
    rw [leftoverChildren_cons]
    have ih := leftoverChildren_nodup pp t P ds (fun x hx => hd10 x (by simp [hx]))
      (List.nodup_cons.1 hnodup).2
    by_cases h : pp.pop (P ++ [Nat.digitChar d]) < t
    · rw [if_pos h]
      refine List.nodup_cons.2 ⟨?_, ih⟩
      intro hmem
      obtain ⟨d2, hd2, _, heq⟩ := mem_leftoverChildren.1 hmem
      have : Nat.digitChar d = Nat.digitChar d2 := by
        have := List.append_cancel_left heq
        injection this
      exact (List.nodup_cons.1 hnodup).1
        (digitChar_inj (hd10 d (by simp)) (hd10 d2 (by simp [hd2])) this ▸ hd2)
    · rw [if_neg h]
      exact ih

theorem build_char : ∀ (fuel : Nat) (pp : PrefixPopulation) (t : Nat) (P : ZStr)
    (acc m : List (ZStr × ZStr)), DigitStr P →
    build_chunks_recursive pp fuel t P acc = .ok m →
    ∃ nw, m = nw ++ acc ∧ BuildOut pp t P nw
  | 0, pp, t, P, acc, m, _, hok => absurd hok (by intro hh; injection hh)
  | fuel + 1, pp, t, P, acc, m, hP, hok => by
    simp only [build_chunks_recursive] at hok
    split at hok
    · exact absurd hok (by intro hh; injection hh)
    · rename_i pfxPop hlk
      obtain ⟨hpop, hlen⟩ := lookup_ok hlk
      by_cases hle : pfxPop ≤ t
      · rw [if_pos hle] at hok
        injection hok with hm
        refine ⟨[(P, P)], by simp [hm.symm], ?_⟩
        exact {
          nonempty := by simp
          keyLead := by
            intro kv hkv
            simp at hkv
            rw [hkv]
            exact isLead_refl P
          keyLen := by
            intro kv hkv
            simp at hkv
            rw [hkv]
            exact hlen
          keyDigits := by
            intro kv hkv
            simp at hkv
            rw [hkv]
            exact hP
          keysNodup := by simp
          valShape := by
            intro kv hkv
            simp at hkv
            rw [hkv]
            refine Or.inl ⟨rfl, ?_⟩
            show pp.pop P ≤ t
            omega
          groupBound := by
            intro Q i
            rw [valueSum_eq_zero]
            · omega
            · intro kv hkv heq
              simp at hkv
              rw [hkv] at heq
              exact chunkId_ne_digitStr hP Q i heq.symm
          covers := fun z _ _ hlead => ⟨(P, P), by simp, hlead⟩ }
      · rw [if_neg hle] at hok
        split at hok
        · exact absurd hok (by intro hh; injection hh)
        · rename_i pr acc2 leftsres heq2
          obtain ⟨nwL, hacc2, hleft, hCO⟩ :=
            childLoop_char pp t P _
              (fun ch acc3 m2 hd hk => build_char fuel pp t ch acc3 m2 hd hk)
              hP (List.range 10) acc [] acc2 leftsres
              (fun d hd => List.mem_range.1 hd) (List.nodup_range 10) heq2
          rw [List.nil_append] at hleft
          have hP2 : '_' ∉ P := underscore_not_digitStr hP
          have hPlt : P.length < ZIP_CODE_LENGTH := hCO.lenOk (by simp)
          obtain ⟨nwG, hm, hkeysG, hjsG, hboundG, hidsG, hpopsG⟩ :=
            groupLeftovers_char pp t P hP2 leftsres 0 0 acc2 m (by omega) hok
          subst hacc2
          subst hleft
          set lefts := leftoverChildren pp t P (List.range 10) with hleftsdef
          have hmemG : ∀ kv ∈ nwG, kv.1 ∈ lefts := by
            intro kv hkv
            have : kv.1 ∈ nwG.map Prod.fst := List.mem_map.2 ⟨kv, hkv, rfl⟩
            rw [hkeysG] at this
            exact List.mem_reverse.1 this
          have hleftShape : ∀ x ∈ lefts, ∃ d, d < 10 ∧
              pp.pop (P ++ [Nat.digitChar d]) < t ∧ x = P ++ [Nat.digitChar d] := by
            intro x hx
            obtain ⟨d, hd, hp2, hx2⟩ := mem_leftoverChildren.1 hx
            exact ⟨d, List.mem_range.1 hd, hp2, hx2⟩
          refine ⟨nwG ++ nwL, by rw [hm, List.append_assoc], ?_⟩
          exact {
            nonempty := by
              cases hc : lefts with
              | cons x xs =>
                intro hemp
                have : nwG.map Prod.fst = [] := by
                  rw [List.append_eq_nil] at hemp
                  rw [hemp.1]
                  simp
                rw [hkeysG, hc] at this
                simp at this
              | nil =>
                have h0 : ¬pp.pop (P ++ [Nat.digitChar 0]) < t := by
                  intro hlt0
                  have : (P ++ [Nat.digitChar 0]) ∈ lefts :=
                    mem_leftoverChildren.2 ⟨0, by simp, hlt0, rfl⟩
                  rw [hc] at this
                  simp at this
                have hz : DigitStr (P ++ Nat.digitChar 0 ::
                    List.replicate (ZIP_CODE_LENGTH - (P.length + 1)) '0') := by
                  apply digitStr_append hP
                  intro c hc2
                  have hc0 : c = '0' := by
                    rcases List.mem_cons.1 hc2 with h1 | h1
                    · rw [h1]
                      rfl
                    · exact List.eq_of_mem_replicate h1
                  rw [hc0]
                  decide
                obtain ⟨kv, hkv, _⟩ := hCO.recursedCover 0 (by decide) (by omega)
                  (P ++ Nat.digitChar 0 ::
                    List.replicate (ZIP_CODE_LENGTH - (P.length + 1)) '0')
                  hz (by simp [List.length_replicate]; omega)
                  ⟨List.replicate (ZIP_CODE_LENGTH - (P.length + 1)) '0', by simp⟩
                intro hemp
                rw [List.append_eq_nil] at hemp
                rw [hemp.2] at hkv
                simp at hkv
            keyLead := by
              intro kv hkv
              rcases List.mem_append.1 hkv with h1 | h1
              · obtain ⟨d, _, _, hx2⟩ := hleftShape kv.1 (hmemG kv h1)
                rw [hx2]
                exact ⟨[Nat.digitChar d], rfl⟩
              · obtain ⟨d, _, hl, _⟩ := hCO.keyLead kv h1
                exact isLead_trans ⟨[Nat.digitChar d], rfl⟩ hl
            keyLen := by
              intro kv hkv
              rcases List.mem_append.1 hkv with h1 | h1
              · obtain ⟨d, _, _, hx2⟩ := hleftShape kv.1 (hmemG kv h1)
                rw [hx2]
                simp
                omega
              · exact hCO.keyLen kv h1
            keyDigits := by
              intro kv hkv
              rcases List.mem_append.1 hkv with h1 | h1
              · obtain ⟨d, hd, _, hx2⟩ := hleftShape kv.1 (hmemG kv h1)
                rw [hx2]
                exact digitStr_append hP (digitStr_digitChar hd)
              · exact hCO.keyDigits kv h1
            keysNodup := by
              rw [List.map_append, List.nodup_append]
              have hnodupG : (nwG.map Prod.fst).Nodup := by
                rw [hkeysG]
                exact List.nodup_reverse.2 (leftoverChildren_nodup pp t P
                  (List.range 10) (fun d hd => List.mem_range.1 hd)
                  (List.nodup_range 10))
              refine ⟨hnodupG, hCO.keysNodup, ?_⟩
              intro k hk1 hk2
              obtain ⟨kv1, hkv1, hkeq1⟩ := List.mem_map.1 hk1
              obtain ⟨kv2, hkv2, hkeq2⟩ := List.mem_map.1 hk2
              obtain ⟨d, hd, hplt, hx2⟩ := hleftShape kv1.1 (hmemG kv1 hkv1)
              obtain ⟨d2, hd2, hl2, hp2⟩ := hCO.keyLead kv2 hkv2
              have hkk : kv1.1 = kv2.1 := by rw [hkeq1, hkeq2]
              have hlen2 : kv2.1.length = P.length + 1 := by
                rw [← hkk, hx2]
                simp
              have heq2 : P ++ [Nat.digitChar d2] = kv2.1 :=
                isLead_len_eq hl2 (by simp [hlen2])
              have : Nat.digitChar d = Nat.digitChar d2 := by
                have := hx2 ▸ (hkk.trans heq2.symm)
                have := List.append_cancel_left this
                injection this
              rw [digitChar_inj hd (List.mem_range.1 hd2) this] at hplt
              omega
            valShape := by
              intro kv hkv
              rcases List.mem_append.1 hkv with h1 | h1
              · obtain ⟨j, _, hval⟩ := hjsG kv h1
                exact Or.inr ⟨P, j, hval, isLead_refl P, hP, by omega⟩
              · rcases hCO.valShape kv h1 with h2 | ⟨Q, i, hv, ⟨d2, _, hl2⟩, hdig, hql⟩
                · exact Or.inl h2
                · exact Or.inr ⟨Q, i, hv,
                    isLead_trans ⟨[Nat.digitChar d2], rfl⟩ hl2, hdig, hql⟩
            groupBound := by
              intro Q i
              rw [valueSum_append]
              by_cases hQP : Q = P
              · subst hQP
                have hz : valueSum pp nwL (chunkId Q i) = 0 := by
                  apply valueSum_eq_zero
                  intro kv hkv heq
                  rcases hCO.valShape kv hkv with ⟨hvk, _⟩ |
                      ⟨Q2, i2, hval, ⟨d2, hd2, hl2⟩, hdig2, _⟩
                  · exact chunkId_ne_digitStr (hCO.keyDigits kv hkv) Q i (heq ▸ hvk)
                  · have := chunkId_inj (underscore_not_digitStr hdig2) (hval ▸ heq)
                    have hlenQ2 : Q.length + 1 ≤ Q2.length := by
                      have := isLead_len hl2
                      simp at this
                      omega
                    rw [this.1] at hlenQ2
                    omega
                have := hboundG i
                rw [ite_self] at this
                omega
              · have hz : valueSum pp nwG (chunkId Q i) = 0 := by
                  apply valueSum_eq_zero
                  intro kv hkv heq
                  obtain ⟨j, _, hval⟩ := hjsG kv hkv
                  exact hQP ((chunkId_inj hP2 (hval ▸ heq)).1).symm
                rw [hz]
                have := hCO.groupBound Q i
                omega
            covers := by
              intro z hzd hzl hzP
              obtain ⟨c, r, hzeq⟩ := isLead_ext hzP (by omega)
              have hcz : c ∈ z := by
                rw [hzeq]
                simp
              obtain ⟨d2, hd2, hceq⟩ := exists_digit_of_mem hzd hcz
              have hlead2 : IsLead (P ++ [Nat.digitChar d2]) z := by
                rw [hzeq, hceq]
                exact ⟨r, by simp⟩
              by_cases hplt : pp.pop (P ++ [Nat.digitChar d2]) < t
              · have hmem : (P ++ [Nat.digitChar d2]) ∈ lefts :=
                  mem_leftoverChildren.2 ⟨d2, List.mem_range.2 hd2, hplt, rfl⟩
                have : (P ++ [Nat.digitChar d2]) ∈ nwG.map Prod.fst := by
                  rw [hkeysG]
                  exact List.mem_reverse.2 hmem
                obtain ⟨kv, hkv, hkeq⟩ := List.mem_map.1 this
                exact ⟨kv, List.mem_append.2 (Or.inl hkv), hkeq ▸ hlead2⟩
              · obtain ⟨kv, hkv, hl⟩ := hCO.recursedCover d2 (List.mem_range.2 hd2)
                  (by omega) z hzd hzl hlead2
                exact ⟨kv, List.mem_append.2 (Or.inr hkv), hl⟩ }

theorem classifier_new_ok {rows : List (ZStr × Nat)} {t : Nat} {c : Classifier}
    (h : Classifier.new rows t = .ok c) :
    c.target_population = t ∧
    build_chunks_recursive (PrefixPopulation.new rows) (ZIP_CODE_LENGTH + 1) t [] []
      = .ok c.chunk_id_for_pfx := by
  simp only [Classifier.new] at h
  split at h
  · exact absurd h (by intro hh; injection hh)
  · rename_i m heq
    injection h with h2
    rw [← h2]
    exact ⟨rfl, heq⟩

theorem lookup_error {pp : PrefixPopulation} {x : ZStr} {e : BuildPanic}
    (h : pp.lookup x = .error e) : e = .lookupOverflow := by
  rw [PrefixPopulation.lookup] at h
  by_cases hl : ZIP_CODE_LENGTH < x.length
  · rw [if_pos hl] at h
    injection h with h2
    exact h2.symm
  · rw [if_neg hl] at h
    exact absurd h (by intro hh; injection hh)

theorem childLoop_ok_lefts (pp : PrefixPopulation) (t : Nat) (P : ZStr)
    (go : ZStr → List (ZStr × ZStr) → Except BuildPanic (List (ZStr × ZStr))) :
    ∀ (ds : List Nat) (acc : List (ZStr × ZStr)) (lefts : List ZStr)
      (m : List (ZStr × ZStr)) (lefts2 : List ZStr),
    childLoop pp t P go ds acc lefts = .ok (m, lefts2) →
    lefts2 = lefts ++ leftoverChildren pp t P ds
  | [], acc, lefts, m, lefts2, hok => by
    rw [childLoop] at hok
    injection hok with hpair
    injection hpair with h1 h2
    simp [h2.symm, leftoverChildren]
  | d :: ds, acc, lefts, m, lefts2, hok => by
    simp only [childLoop] at hok
    split at hok
    · exact absurd hok (by intro hh; injection hh)
    · rename_i childPop hlk
      obtain ⟨hpop, _⟩ := lookup_ok hlk
      by_cases hge : t ≤ childPop
      · rw [if_pos hge] at hok
        split at hok
        · exact absurd hok (by intro hh; injection hh)
        · rename_i acc2 _
          rw [childLoop_ok_lefts pp t P go ds acc2 lefts m lefts2 hok,
            leftoverChildren_cons, if_neg (by omega)]
      · rw [if_neg hge] at hok
        rw [childLoop_ok_lefts pp t P go ds acc (lefts ++ [P ++ [Nat.digitChar d]])
          m lefts2 hok, leftoverChildren_cons, if_pos (by omega)]
        simp

theorem groupLeftovers_no_assert (pp : PrefixPopulation) (t : Nat) (P : ZStr) :
    ∀ (ls : List ZStr), (∀ x ∈ ls, pp.pop x < t) →
    ∀ (i0 c0 : Nat) (acc : List (ZStr × ZStr)),
    groupLeftovers pp t P ls i0 c0 acc ≠ .error .assertFailed
  | [], _, i0, c0, acc => by
    rw [groupLeftovers]
    intro hh
    injection hh
  | x :: ls, hpop, i0, c0, acc => by
    rw [groupLeftovers]
    intro hh
    revert hh
    split
    · rename_i e hlk
      intro hh
      injection hh with h2
      rw [lookup_error hlk] at h2
      exact absurd h2 (by intro h3; injection h3)
    · rename_i childPop hlk
      rw [if_pos (by rw [(lookup_ok hlk).1]; exact hpop x (by simp))]
      simp only
      exact groupLeftovers_no_assert pp t P ls
        (fun y hy => hpop y (by simp [hy])) _ _ _

theorem childLoop_no_assert (pp : PrefixPopulation) (t : Nat) (P : ZStr)
    (go : ZStr → List (ZStr × ZStr) → Except BuildPanic (List (ZStr × ZStr)))
    (hgo : ∀ ch acc, go ch acc ≠ .error .assertFailed) :
    ∀ (ds : List Nat) (acc : List (ZStr × ZStr)) (lefts : List ZStr),
    childLoop pp t P go ds acc lefts ≠ .error .assertFailed
  | [], acc, lefts => by
    rw [childLoop]
    intro hh
    injection hh
  | d :: ds, acc, lefts => by
    simp only [childLoop]
    intro hh
    revert hh
    split
    · rename_i e hlk
      intro hh
      injection hh with h2
      rw [lookup_error hlk] at h2
      exact absurd h2 (by intro h3; injection h3)
    · rename_i childPop hlk
      by_cases hge : t ≤ childPop
      · rw [if_pos hge]
        split
        · rename_i e hgoeq
          intro hh
          injection hh with h2
          exact hgo _ acc (h2 ▸ hgoeq)
        · rename_i acc2 _
          exact childLoop_no_assert pp t P go hgo ds acc2 lefts
      · rw [if_neg hge]
        exact childLoop_no_assert pp t P go hgo ds acc (lefts ++ [P ++ [Nat.digitChar d]])

theorem build_no_assert (pp : PrefixPopulation) (t : Nat) :
    ∀ (fuel : Nat) (P : ZStr) (acc : List (ZStr × ZStr)),
    build_chunks_recursive pp fuel t P acc ≠ .error .assertFailed
  | 0, P, acc => by
    rw [build_chunks_recursive]
    intro hh
    injection hh with h2
    exact absurd h2 (by intro h3; injection h3)
  | fuel + 1, P, acc => by
    simp only [build_chunks_recursive]
    intro hh
    revert hh
    split
    · rename_i e hlk
      intro hh
      injection hh with h2
      rw [lookup_error hlk] at h2
      exact absurd h2 (by intro h3; injection h3)
    · rename_i pfxPop hlk
      by_cases hle : pfxPop ≤ t
      · rw [if_pos hle]
        intro hh
        injection hh
      · rw [if_neg hle]
        split
        · rename_i e hcl
          intro hh
          injection hh with h2
          exact childLoop_no_assert pp t P _
            (fun ch acc2 => build_no_assert pp t fuel ch acc2)
            (List.range 10) acc [] (h2 ▸ hcl)
        · rename_i pr acc2 lefts2 hcl
          have hlefts := childLoop_ok_lefts pp t P _ (List.range 10) acc [] acc2 lefts2 hcl
          rw [List.nil_append] at hlefts
          apply groupLeftovers_no_assert pp t P lefts2
          intro x hx
          rw [hlefts] at hx
          obtain ⟨d, _, hp2, hx2⟩ := mem_leftoverChildren.1 hx
          rw [hx2]
          exact hp2

theorem groupLeftovers_success (pp : PrefixPopulation) (t : Nat) (P : ZStr) :
    ∀ (ls : List ZStr), (∀ x ∈ ls, x.length ≤ ZIP_CODE_LENGTH ∧ pp.pop x < t) →
    ∀ (i0 c0 : Nat) (acc : List (ZStr × ZStr)),
    ∃ m, groupLeftovers pp t P ls i0 c0 acc = .ok m
  | [], _, i0, c0, acc => ⟨acc, rfl⟩
  | x :: ls, hls, i0, c0, acc => by
    have hlt : pp.pop x < t := (hls x (by simp)).2
    rw [groupLeftovers, lookup_short (hls x (by simp)).1]
    simp only [hlt, if_true]
    exact groupLeftovers_success pp t P ls (fun y hy => hls y (by simp [hy])) _ _ _

theorem childLoop_success (pp : PrefixPopulation) (t : Nat) (P : ZStr)
    (go : ZStr → List (ZStr × ZStr) → Except BuildPanic (List (ZStr × ZStr)))
    (hgo : ∀ ch acc, DigitStr ch → ch.length = P.length + 1 →
      ch.length ≤ ZIP_CODE_LENGTH → ∃ m, go ch acc = .ok m)
    (hP : DigitStr P) (hPlen : P.length < ZIP_CODE_LENGTH) :
    ∀ (ds : List Nat) (acc : List (ZStr × ZStr)) (lefts : List ZStr),
    (∀ d ∈ ds, d < 10) →
    ∃ acc2 lefts2, childLoop pp t P go ds acc lefts = .ok (acc2, lefts2)
  | [], acc, lefts, _ => ⟨acc, lefts, rfl⟩
  | d :: ds, acc, lefts, hd10 => by
    have hchlen : (P ++ [Nat.digitChar d]).length ≤ ZIP_CODE_LENGTH := by
      simp
      omega
    simp only [childLoop]
    rw [lookup_short hchlen]
    by_cases hge : t ≤ pp.pop (P ++ [Nat.digitChar d])
    · obtain ⟨m2, hm2⟩ := hgo (P ++ [Nat.digitChar d]) acc
        (digitStr_append hP (digitStr_digitChar (hd10 d (by simp)))) (by simp) hchlen
      simp only [hge, if_true, hm2]
      exact childLoop_success pp t P go hgo hP hPlen ds m2 lefts
        (fun d2 h2 => hd10 d2 (by simp [h2]))
    · simp only [hge, if_false]
      exact childLoop_success pp t P go hgo hP hPlen ds acc
        (lefts ++ [P ++ [Nat.digitChar d]]) (fun d2 h2 => hd10 d2 (by simp [h2]))

theorem build_success (pp : PrefixPopulation) (t : Nat)
    (hbound : ∀ z : ZStr, DigitStr z → z.length = ZIP_CODE_LENGTH →
      pp.pop z ≤ t) :
    ∀ (fuel : Nat) (P : ZStr), DigitStr P → P.length ≤ ZIP_CODE_LENGTH →
    ZIP_CODE_LENGTH + 1 ≤ fuel + P.length →
    ∀ (acc : List (ZStr × ZStr)),
    ∃ m, build_chunks_recursive pp fuel t P acc = .ok m
  | 0, P, _, hlen, hfuel, acc => by omega
  | fuel + 1, P, hP, hlen, hfuel, acc => by
    simp only [build_chunks_recursive]
    rw [lookup_short hlen]
    by_cases hle : pp.pop P ≤ t
    · simp only [hle, if_true]
      exact ⟨(P, P) :: acc, rfl⟩
    · simp only [hle, if_false]
      have hPlt : P.length < ZIP_CODE_LENGTH := by
        rcases Nat.lt_or_ge P.length ZIP_CODE_LENGTH with h | h
        · exact h
        · exact absurd (hbound P hP (by omega)) hle
      obtain ⟨acc2, lefts2, hcl⟩ := childLoop_success pp t P
        (fun child acc2 => build_chunks_recursive pp fuel t child acc2)
        (fun ch acc2 hd hl1 hl2 => build_success pp t hbound fuel ch hd hl2
          (by omega) acc2)
        hP hPlt (List.range 10) acc [] (fun d hd => List.mem_range.1 hd)
      rw [hcl]
      have hlefts := childLoop_ok_lefts pp t P _ (List.range 10) acc [] acc2 lefts2 hcl
      rw [List.nil_append] at hlefts
      show ∃ m, groupLeftovers pp t P lefts2 0 0 acc2 = .ok m
      refine groupLeftovers_success pp t P lefts2 ?_ 0 0 acc2
      intro x hx
      rw [hlefts] at hx
      obtain ⟨d, hd, hp2, hx2⟩ := mem_leftoverChildren.1 hx
      refine ⟨?_, ?_⟩
      · rw [hx2]
        simp
        omega
      · rw [hx2]
        exact hp2

/-! ### Claims about the builder -/

/-- Claim C1: in the chunk mapping built by Classifier::new, the keys are
distinct, every prefix assigned a leaf identifier (equal to itself) has
aggregate population at most the target, and for every leftover-group
identifier the total population of the prefixes assigned to it is at most
the target. -/
theorem claim_C1_chunk_population_bounds (rows : List (ZStr × Nat)) (t : Nat)
    (c : Classifier) (h : Classifier.new rows t = .ok c) :
    (c.chunk_id_for_pfx.map Prod.fst).Nodup ∧
    (∀ kv ∈ c.chunk_id_for_pfx, kv.2 = kv.1 →
      (PrefixPopulation.new rows).pop kv.1 ≤ t) ∧
    (∀ Q i, valueSum (PrefixPopulation.new rows) c.chunk_id_for_pfx
      (chunkId Q i) ≤ t) := by
  obtain ⟨_, hbuild⟩ := classifier_new_ok h
  obtain ⟨nw, hm, hBO⟩ := build_char (ZIP_CODE_LENGTH + 1)
    (PrefixPopulation.new rows) t [] [] c.chunk_id_for_pfx digitStr_nil hbuild
  rw [List.append_nil] at hm
  subst hm
  refine ⟨hBO.keysNodup, ?_, hBO.groupBound⟩
  intro kv hkv hleaf
  rcases hBO.valShape kv hkv with ⟨_, hle⟩ | ⟨Q, i, hval, _, _, _⟩
  · exact hle
  · exact absurd (hval ▸ hleaf) (chunkId_ne_digitStr (hBO.keyDigits kv hkv) Q i)

theorem claim_C1_witness :
    Classifier.new [(['2', '1', '0', '0', '0'], 7)] 10 = .ok ⟨10, [([], [])]⟩ ∧
    ((([([], [])] : List (ZStr × ZStr)).map Prod.fst).Nodup ∧
    (∀ kv ∈ ([([], [])] : List (ZStr × ZStr)), kv.2 = kv.1 →
      (PrefixPopulation.new [(['2', '1', '0', '0', '0'], 7)]).pop kv.1 ≤ 10) ∧
    (∀ Q i, valueSum (PrefixPopulation.new [(['2', '1', '0', '0', '0'], 7)])
      [([], [])] (chunkId Q i) ≤ 10)) :=
  ⟨by decide, by
    have := claim_C1_chunk_population_bounds [(['2', '1', '0', '0', '0'], 7)] 10
      ⟨10, [([], [])]⟩ (by decide)
    exact this⟩

/-- Claim C9: when construction succeeds, every digit string of exactly
ZIP_CODE_LENGTH characters has at least one prefix among the keys of the
mapping, so the empty-identifier fallback of chunk_for is never taken: the
answer always comes from a hit in the mapping. -/
theorem claim_C9_mapping_covers (rows : List (ZStr × Nat)) (t : Nat)
    (c : Classifier) (h : Classifier.new rows t = .ok c) :
    ∀ zip : ZStr, DigitStr zip → zip.length = ZIP_CODE_LENGTH →
    (∃ i, i ≤ ZIP_CODE_LENGTH ∧
      (alGet c.chunk_id_for_pfx (zip.take i)).isSome) ∧
    (∃ i cid, i ≤ ZIP_CODE_LENGTH ∧
      alGet c.chunk_id_for_pfx (zip.take i) = some cid ∧
      Classifier.chunk_for c zip = .ok cid) := by
  intro zip hzd hzl
  obtain ⟨_, hbuild⟩ := classifier_new_ok h
  obtain ⟨nw, hm, hBO⟩ := build_char (ZIP_CODE_LENGTH + 1)
    (PrefixPopulation.new rows) t [] [] c.chunk_id_for_pfx digitStr_nil hbuild
  rw [List.append_nil] at hm
  subst hm
  obtain ⟨kv, hkv, hlead⟩ := hBO.covers zip hzd hzl (isLead_nil zip)
  have hkle : kv.1.length ≤ ZIP_CODE_LENGTH := hBO.keyLen kv hkv
  have htake : zip.take kv.1.length = kv.1 := isLead_take hlead
  have hsome : (alGet c.chunk_id_for_pfx (zip.take kv.1.length)).isSome := by
    rw [htake]
    exact mem_alGet_isSome c.chunk_id_for_pfx kv.1 kv.2 (by
      obtain ⟨a, b⟩ := kv
      exact hkv)
  refine ⟨⟨kv.1.length, hkle, hsome⟩, ?_⟩
  obtain ⟨i, cid, hile, hget, hloop⟩ := chunkForLoop_hit c.chunk_id_for_pfx zip
    (List.range (ZIP_CODE_LENGTH + 1)) (fun iRev _ => by omega)
    ⟨ZIP_CODE_LENGTH - kv.1.length, by
      constructor
      · rw [List.mem_range]
        omega
      · rw [show ZIP_CODE_LENGTH - (ZIP_CODE_LENGTH - kv.1.length) = kv.1.length
          by omega]
        exact hsome⟩
  exact ⟨i, cid, hile, hget, hloop⟩

theorem claim_C9_witness :
    Classifier.new [(['2', '1', '0', '0', '0'], 7)] 9 = .ok ⟨9, [([], [])]⟩ ∧
    DigitStr ['4', '2', '4', '2', '4'] ∧
    (['4', '2', '4', '2', '4'] : ZStr).length = ZIP_CODE_LENGTH ∧
    ((∃ i, i ≤ ZIP_CODE_LENGTH ∧
      (alGet ([([], [])] : List (ZStr × ZStr))
        ((['4', '2', '4', '2', '4'] : ZStr).take i)).isSome) ∧
    (∃ i cid, i ≤ ZIP_CODE_LENGTH ∧
      alGet ([([], [])] : List (ZStr × ZStr))
        ((['4', '2', '4', '2', '4'] : ZStr).take i) = some cid ∧
      Classifier.chunk_for ⟨9, [([], [])]⟩ ['4', '2', '4', '2', '4'] = .ok cid)) :=
  ⟨by decide, by decide, by decide,
    claim_C9_mapping_covers [(['2', '1', '0', '0', '0'], 7)] 9 ⟨9, [([], [])]⟩
      (by decide) ['4', '2', '4', '2', '4'] (by decide) (by decide)⟩

/-- Claim C5 counterexample: the claim says the builder never issues a
Population Table lookup longer than the code length for any target and any
data, but with target 1 and one code of population 2 the recursion reaches a
full-length prefix whose population still exceeds the target and the fatal
lookup panic fires during construction. -/
theorem claim_C5_counterexample :
    Classifier.new [(['0', '0', '0', '0', '0'], 2)] 1 =
      .error .lookupOverflow := by decide

/-- Claim C5 amended: the grouping assert can never fail, and under the
condition that every full-length digit code has aggregate population at most
the target, the builder never issues an over-long lookup either: the whole
construction succeeds without hitting any panic branch. -/
theorem claim_C5_amended_no_internal_panic (rows : List (ZStr × Nat)) (t : Nat)
    (hbound : ∀ z : ZStr, DigitStr z → z.length = ZIP_CODE_LENGTH →
      (PrefixPopulation.new rows).pop z ≤ t) :
    (∀ (fuel : Nat) (P : ZStr) (acc : List (ZStr × ZStr)),
      build_chunks_recursive (PrefixPopulation.new rows) fuel t P acc ≠
        .error .assertFailed) ∧
    ∃ c, Classifier.new rows t = .ok c := by
  constructor
  · exact fun fuel P acc => build_no_assert (PrefixPopulation.new rows) t fuel P acc
  · obtain ⟨m, hm⟩ := build_success (PrefixPopulation.new rows) t hbound
      (ZIP_CODE_LENGTH + 1) [] digitStr_nil (by simp [ZIP_CODE_LENGTH])
      (by simp) []
    refine ⟨⟨t, m⟩, ?_⟩
    simp only [Classifier.new]
    rw [hm]

theorem claim_C5_witness :
    (∀ z : ZStr, DigitStr z → z.length = ZIP_CODE_LENGTH →
      (PrefixPopulation.new [(['0', '0', '0', '0', '0'], 5)]).pop z ≤ 10) ∧
    ((∀ (fuel : Nat) (P : ZStr) (acc : List (ZStr × ZStr)),
      build_chunks_recursive (PrefixPopulation.new [(['0', '0', '0', '0', '0'], 5)])
        fuel 10 P acc ≠ .error .assertFailed) ∧
    ∃ c, Classifier.new [(['0', '0', '0', '0', '0'], 5)] 10 = .ok c) := by
  have hbound : ∀ z : ZStr, DigitStr z → z.length = ZIP_CODE_LENGTH →
      (PrefixPopulation.new [(['0', '0', '0', '0', '0'], 5)]).pop z ≤ 10 := by
    intro z _ hl
    rw [pop_new _ z (le_of_eq hl)]
    simp only [List.map_cons, List.map_nil, List.sum_cons, List.sum_nil]
    split <;> omega
  exact ⟨hbound,
    claim_C5_amended_no_internal_panic [(['0', '0', '0', '0', '0'], 5)] 10 hbound⟩

/-! ### Next-fit grouping lemmas for the chunk count comparison -/

theorem nf_load (t : Nat) : ∀ (l : List Nat) (c c2 : Nat),
    (c ≤ c2 → nfSteps t c l ≤ nfSteps t c2 l) ∧
    (nfSteps t c2 l ≤ nfSteps t c l + 1)
  | [], c, c2 => by simp [nfSteps]
  | x :: xs, c, c2 => by
    constructor
    · intro hcc
      rw [nfSteps, nfSteps]
      by_cases h1 : t < c + x
      · rw [if_pos h1, if_pos (by omega)]
      · by_cases h2 : t < c2 + x
        · rw [if_neg h1, if_pos h2]
          have := (nf_load t xs x (c + x)).2
          omega
        · rw [if_neg h1, if_neg h2]
          exact (nf_load t xs (c + x) (c2 + x)).1 (by omega)
    · rw [nfSteps, nfSteps]
      by_cases h1 : t < c + x
      · by_cases h2 : t < c2 + x
        · rw [if_pos h1, if_pos h2]
          omega
        · rw [if_pos h1, if_neg h2]
          have := (nf_load t xs x (c2 + x)).2
          omega
      · by_cases h2 : t < c2 + x
        · rw [if_neg h1, if_pos h2]
          have := (nf_load t xs x (c + x)).1 (by omega)
          omega
        · rw [if_neg h1, if_neg h2]
          exact (nf_load t xs (c + x) (c2 + x)).2

theorem nf_cap {t1 t2 : Nat} (ht : t1 ≤ t2) : ∀ (l : List Nat) (c : Nat),
    nfSteps t2 c l ≤ nfSteps t1 c l
  | [], c => by simp [nfSteps]
  | x :: xs, c => by
    rw [nfSteps, nfSteps]
    by_cases h2 : t2 < c + x
    · rw [if_pos h2, if_pos (by omega)]
      have := nf_cap ht xs x
      omega
    · by_cases h1 : t1 < c + x
      · rw [if_neg h2, if_pos h1]
        have ha := (nf_load t2 xs x (c + x)).2
        have hb := nf_cap ht xs x
        omega
      · rw [if_neg h2, if_neg h1]
        exact nf_cap ht xs (c + x)

theorem binIds_cons_eq (t : Nat) : ∀ (xs : List Nat) (x i0 c0 : Nat),
    binIdsFrom t i0 c0 (x :: xs) =
      Finset.Icc (if t < c0 + x then i0 + 1 else i0) (i0 + nfSteps t c0 (x :: xs))
  | [], x, i0, c0 => by
    have hbin : binIdsFrom t i0 c0 [x] =
        insert (if t < c0 + x then i0 + 1 else i0) ∅ := rfl
    have hnf : nfSteps t c0 [x] =
        if t < c0 + x then 1 + nfSteps t x [] else nfSteps t (c0 + x) [] := rfl
    rw [hbin, hnf]
    by_cases h : t < c0 + x
    · rw [if_pos h, if_pos h]
      have h2 : i0 + (1 + nfSteps t x []) = i0 + 1 := by
        rw [show nfSteps t x [] = 0 from rfl]
      rw [h2, Finset.Icc_self]
      rfl
    · rw [if_neg h, if_neg h]
      have h2 : i0 + nfSteps t (c0 + x) [] = i0 := by
        rw [show nfSteps t (c0 + x) [] = 0 from rfl]
        omega
      rw [h2, Finset.Icc_self]
      rfl
  | y :: ys, x, i0, c0 => by
    rw [binIdsFrom]
    rw [binIds_cons_eq t ys y _ _]
    have hstep : nfSteps t c0 (x :: y :: ys) =
        if t < c0 + x then 1 + nfSteps t x (y :: ys)
        else nfSteps t (c0 + x) (y :: ys) := rfl
    set i1 := if t < c0 + x then i0 + 1 else i0 with hi1
    set c1 := (if t < c0 + x then 0 else c0) + x with hc1
    have htop : i1 + nfSteps t c1 (y :: ys) = i0 + nfSteps t c0 (x :: y :: ys) := by
      rw [hstep, hi1, hc1]
      by_cases h : t < c0 + x
      · simp only [if_pos h, Nat.zero_add]
        omega
      · simp only [if_neg h]
    have hle : i1 ≤ i0 + nfSteps t c0 (x :: y :: ys) := by
      rw [hstep, hi1]
      by_cases h : t < c0 + x
      · simp only [if_pos h]
        omega
      · simp only [if_neg h]
        omega
    rw [htop]
    by_cases h2 : t < c1 + y
    · rw [if_pos h2]
      have hnf : 1 ≤ nfSteps t c1 (y :: ys) := by
        rw [show nfSteps t c1 (y :: ys) =
          if t < c1 + y then 1 + nfSteps t y ys else nfSteps t (c1 + y) ys from rfl]
        rw [if_pos h2]
        omega
      rw [show Finset.Icc (i1 + 1) (i0 + nfSteps t c0 (x :: y :: ys)) =
          Finset.Ioc i1 (i0 + nfSteps t c0 (x :: y :: ys)) from Nat.Icc_succ_left _ _]
      exact Finset.Ioc_insert_left (by omega)
    · rw [if_neg h2]
      apply Finset.insert_eq_self.2
      rw [Finset.mem_Icc]
      exact ⟨le_rfl, hle⟩

theorem leftoverChildren_gap_eq (pp : PrefixPopulation) {t1 t2 : Nat}
    (ht : t1 ≤ t2) (P : ZStr) (hP : DigitStr P)
    (hPlen : P.length < ZIP_CODE_LENGTH)
    (hgap : ∀ q : ZStr, DigitStr q → q.length ≤ ZIP_CODE_LENGTH →
      ¬(t1 ≤ pp.pop q ∧ pp.pop q < t2)) :
    ∀ ds : List Nat, (∀ d ∈ ds, d < 10) →
    leftoverChildren pp t2 P ds = leftoverChildren pp t1 P ds
  | [], _ => by simp [leftoverChildren]
  | d :: ds, hd10 => by
    rw [leftoverChildren_cons, leftoverChildren_cons,
      leftoverChildren_gap_eq pp ht P hP hPlen hgap ds
        (fun x hx => hd10 x (by simp [hx]))]
    have hchd : DigitStr (P ++ [Nat.digitChar d]) :=
      digitStr_append hP (digitStr_digitChar (hd10 d (by simp)))
    have hchl : (P ++ [Nat.digitChar d]).length ≤ ZIP_CODE_LENGTH := by
      simp
      omega
    have hg := hgap _ hchd hchl
    by_cases h1 : pp.pop (P ++ [Nat.digitChar d]) < t1
    · rw [if_pos (by omega), if_pos h1]
    · rw [if_neg (by omega), if_neg h1]

theorem idsOf_card_append_le (a b : List (ZStr × ZStr)) :
    (idsOf (a ++ b)).card ≤ (idsOf a).card + (idsOf b).card := by
  rw [idsOf_append]
  exact Finset.card_union_le _ _

theorem idsOf_card_append_eq (a b : List (ZStr × ZStr))
    (hd : ∀ v ∈ idsOf a, v ∉ idsOf b) :
    (idsOf (a ++ b)).card = (idsOf a).card + (idsOf b).card := by
  rw [idsOf_append, Finset.card_union_of_disjoint (Finset.disjoint_left.2 hd)]

theorem ids_disjoint_childOut_buildOut (pp : PrefixPopulation) (t : Nat)
    (P : ZStr) (ds : List Nat) (d : Nat) (hdni : d ∉ ds) (hdlt : d < 10)
    (hds10 : ∀ x ∈ ds, x < 10) {rest block : List (ZStr × ZStr)}
    (hCO : ChildOut pp t P ds rest)
    (hBO : BuildOut pp t (P ++ [Nat.digitChar d]) block) :
    ∀ v ∈ idsOf rest, v ∉ idsOf block := by
  intro v hv1 hv2
  obtain ⟨kv1, hkv1, hveq1⟩ := mem_idsOf.1 hv1
  obtain ⟨kv2, hkv2, hveq2⟩ := mem_idsOf.1 hv2
  rcases hCO.valShape kv1 hkv1 with ⟨hl1, _⟩ | ⟨Q, i, hc1, ⟨d1, hd1, hlead1⟩, hdig1, _⟩
  · obtain ⟨d1, hd1, hklead1, _⟩ := hCO.keyLead kv1 hkv1
    rcases hBO.valShape kv2 hkv2 with ⟨hl2, _⟩ | ⟨Q2, i2, hc2, _, _, _⟩
    · have hkeq : kv1.1 = kv2.1 := by
        rw [← hl1, hveq1, ← hveq2, hl2]
      have hklead2 : IsLead (P ++ [Nat.digitChar d]) kv1.1 :=
        hkeq ▸ hBO.keyLead kv2 hkv2
      exact hdni (digitChar_inj (hds10 d1 hd1) hdlt
        (isLead_snoc_char hklead1 hklead2) ▸ hd1)
    · apply chunkId_ne_digitStr (hCO.keyDigits kv1 hkv1) Q2 i2
      rw [← hc2, hveq2, ← hveq1, hl1]
  · rcases hBO.valShape kv2 hkv2 with ⟨hl2, _⟩ | ⟨Q2, i2, hc2, hlead2, hdig2, _⟩
    · apply chunkId_ne_digitStr (hBO.keyDigits kv2 hkv2) Q i
      rw [← hc1, hveq1, ← hveq2, hl2]
    · have heq : chunkId Q i = chunkId Q2 i2 := by
        rw [← hc1, hveq1, ← hveq2, hc2]
      have := chunkId_inj (underscore_not_digitStr hdig1) heq
      rw [← this.1] at hlead2
      exact hdni (digitChar_inj (hds10 d1 hd1) hdlt
        (isLead_snoc_char hlead1 hlead2) ▸ hd1)

theorem childLoop_pair (pp : PrefixPopulation) (t1 t2 : Nat) (ht : t1 ≤ t2)
    (P : ZStr) (hP : DigitStr P)
    (go1 go2 : ZStr → List (ZStr × ZStr) → Except BuildPanic (List (ZStr × ZStr)))
    (hchar1 : ∀ ch acc m, DigitStr ch → go1 ch acc = .ok m →
      ∃ nw, m = nw ++ acc ∧ BuildOut pp t1 ch nw)
    (hpair : ∀ ch acc1 acc2 m1 m2, DigitStr ch →
      go1 ch acc1 = .ok m1 → go2 ch acc2 = .ok m2 →
      ∃ nw1 nw2, m1 = nw1 ++ acc1 ∧ m2 = nw2 ++ acc2 ∧
        (idsOf nw2).card ≤ (idsOf nw1).card)
    (hgap : ∀ q : ZStr, DigitStr q → q.length ≤ ZIP_CODE_LENGTH →
      ¬(t1 ≤ pp.pop q ∧ pp.pop q < t2)) :
    ∀ (ds : List Nat) (acc1 : List (ZStr × ZStr)) (lefts1 : List ZStr)
      (acc2 : List (ZStr × ZStr)) (lefts2 : List ZStr)
      (m1 : List (ZStr × ZStr)) (L1 : List ZStr)
      (m2 : List (ZStr × ZStr)) (L2 : List ZStr),
    (∀ d ∈ ds, d < 10) → ds.Nodup →
    childLoop pp t1 P go1 ds acc1 lefts1 = .ok (m1, L1) →
    childLoop pp t2 P go2 ds acc2 lefts2 = .ok (m2, L2) →
    ∃ nw1 nw2, m1 = nw1 ++ acc1 ∧ m2 = nw2 ++ acc2 ∧
      (idsOf nw2).card ≤ (idsOf nw1).card
  | [], acc1, lefts1, acc2, lefts2, m1, L1, m2, L2, _, _, hok1, hok2 => by
    rw [childLoop] at hok1 hok2
    injection hok1 with hp1
    injection hok2 with hp2
    injection hp1 with ha1 _
    injection hp2 with ha2 _
    exact ⟨[], [], by simp [ha1.symm], by simp [ha2.symm], le_rfl⟩
  | d :: ds, acc1, lefts1, acc2, lefts2, m1, L1, m2, L2, hd10, hnodup, hok1, hok2 => by
    simp only [childLoop] at hok1 hok2
    split at hok1
    · exact absurd hok1 (by intro hh; injection hh)
    · rename_i q1 hlk1
      split at hok2
      · exact absurd hok2 (by intro hh; injection hh)
      · rename_i q2 hlk2
        obtain ⟨hq1, hlenc⟩ := lookup_ok hlk1
        obtain ⟨hq2, _⟩ := lookup_ok hlk2
        have hchd : DigitStr (P ++ [Nat.digitChar d]) :=
          digitStr_append hP (digitStr_digitChar (hd10 d (by simp)))
        have hg := hgap _ hchd hlenc
        have hdni : d ∉ ds := (List.nodup_cons.1 hnodup).1
        have hds' : ds.Nodup := (List.nodup_cons.1 hnodup).2
        have hd10' : ∀ x ∈ ds, x < 10 := fun x hx => hd10 x (by simp [hx])
        by_cases hge1 : t1 ≤ q1
        · have hge2 : t2 ≤ q2 := by omega
          rw [if_pos hge1] at hok1
          rw [if_pos hge2] at hok2
          split at hok1
          · exact absurd hok1 (by intro hh; injection hh)
          · rename_i a1 hgo1
            split at hok2
            · exact absurd hok2 (by intro hh; injection hh)
            · rename_i a2 hgo2
              obtain ⟨block1, block2, ha1, ha2, hcb⟩ :=
                hpair _ acc1 acc2 a1 a2 hchd hgo1 hgo2
              obtain ⟨rest1, rest2, hm1, hm2, hcr⟩ :=
                childLoop_pair pp t1 t2 ht P hP go1 go2 hchar1 hpair hgap
                  ds a1 lefts1 a2 lefts2 m1 L1 m2 L2 hd10' hds' hok1 hok2
              refine ⟨rest1 ++ block1, rest2 ++ block2,
                by rw [hm1, ha1, List.append_assoc],
                by rw [hm2, ha2, List.append_assoc], ?_⟩
              obtain ⟨rest1b, hm1b, _, hCO⟩ :=
                childLoop_char pp t1 P go1 hchar1 hP ds a1 lefts1 m1 L1
                  hd10' hds' hok1
              have hrest1 : rest1b = rest1 :=
                List.append_cancel_right (show rest1b ++ a1 = rest1 ++ a1 by
                  rw [← hm1b, hm1])
              obtain ⟨block1b, ha1b, hBO⟩ := hchar1 _ acc1 a1 hchd hgo1
              have hblock1 : block1b = block1 :=
                List.append_cancel_right (show block1b ++ acc1 = block1 ++ acc1 by
                  rw [← ha1b, ha1])
              rw [hrest1] at hCO
              rw [hblock1] at hBO
              have hdisj := ids_disjoint_childOut_buildOut pp t1 P ds d hdni
                (hd10 d (by simp)) hd10' hCO hBO
              calc (idsOf (rest2 ++ block2)).card
                  ≤ (idsOf rest2).card + (idsOf block2).card :=
                    idsOf_card_append_le rest2 block2
                _ ≤ (idsOf rest1).card + (idsOf block1).card := by omega
                _ = (idsOf (rest1 ++ block1)).card :=
                    (idsOf_card_append_eq rest1 block1 hdisj).symm
        · have hlt1 : q1 < t1 := by omega
          have hge2 : ¬t2 ≤ q2 := by omega
          rw [if_neg hge1] at hok1
          rw [if_neg hge2] at hok2
          exact childLoop_pair pp t1 t2 ht P hP go1 go2 hchar1 hpair hgap
            ds acc1 (lefts1 ++ [P ++ [Nat.digitChar d]]) acc2
            (lefts2 ++ [P ++ [Nat.digitChar d]]) m1 L1 m2 L2 hd10' hds' hok1 hok2

theorem build_pair (pp : PrefixPopulation) (t1 t2 : Nat) (ht : t1 ≤ t2)
    (hgap : ∀ q : ZStr, DigitStr q → q.length ≤ ZIP_CODE_LENGTH →
      ¬(t1 ≤ pp.pop q ∧ pp.pop q < t2)) :
    ∀ (fuel : Nat) (P : ZStr), DigitStr P →
    ∀ (acc1 acc2 m1 m2 : List (ZStr × ZStr)),
    build_chunks_recursive pp fuel t1 P acc1 = .ok m1 →
    build_chunks_recursive pp fuel t2 P acc2 = .ok m2 →
    ∃ nw1 nw2, m1 = nw1 ++ acc1 ∧ m2 = nw2 ++ acc2 ∧
      (idsOf nw2).card ≤ (idsOf nw1).card
  | 0, P, _, acc1, acc2, m1, m2, hok1, _ => absurd hok1 (by intro hh; injection hh)
  | fuel + 1, P, hP, acc1, acc2, m1, m2, hok1, hok2 => by
    have horig1 := hok1
    simp only [build_chunks_recursive] at hok1 hok2
    split at hok1
    · exact absurd hok1 (by intro hh; injection hh)
    · rename_i p1 hlk1
      split at hok2
      · exact absurd hok2 (by intro hh; injection hh)
      · rename_i p2 hlk2
        obtain ⟨hp1, hlen⟩ := lookup_ok hlk1
        obtain ⟨hp2, _⟩ := lookup_ok hlk2
        by_cases hle1 : p1 ≤ t1
        · rw [if_pos hle1] at hok1
          rw [if_pos (show p2 ≤ t2 by omega)] at hok2
          injection hok1 with hm1
          injection hok2 with hm2
          exact ⟨[(P, P)], [(P, P)], by simp [hm1.symm], by simp [hm2.symm], le_rfl⟩
        · rw [if_neg hle1] at hok1
          by_cases hle2 : p2 ≤ t2
          · rw [if_pos hle2] at hok2
            injection hok2 with hm2
            obtain ⟨nw1, hm1, hBO⟩ := build_char (fuel + 1) pp t1 P acc1 m1 hP horig1
            refine ⟨nw1, [(P, P)], hm1, by simp [hm2.symm], ?_⟩
            have h1 : 0 < (idsOf nw1).card := idsOf_card_pos hBO.nonempty
            have h2 : (idsOf [(P, P)]).card = 1 := by
              rw [idsOf_cons, idsOf_nil]
              simp
            omega
          · rw [if_neg hle2] at hok2
            split at hok1
            · exact absurd hok1 (by intro hh; injection hh)
            · rename_i pr1 a1 L1 hcl1
              split at hok2
              · exact absurd hok2 (by intro hh; injection hh)
              · rename_i pr2 a2 L2 hcl2
                have hchar1 : ∀ ch acc m, DigitStr ch →
                    build_chunks_recursive pp fuel t1 ch acc = .ok m →
                    ∃ nw, m = nw ++ acc ∧ BuildOut pp t1 ch nw :=
                  fun ch acc m hd hk => build_char fuel pp t1 ch acc m hd hk
                obtain ⟨nwL1, nwL2, ha1, ha2, hcL⟩ :=
                  childLoop_pair pp t1 t2 ht P hP _ _ hchar1
                    (fun ch b1 b2 n1 n2 hd hk1 hk2 =>
                      build_pair pp t1 t2 ht hgap fuel ch hd b1 b2 n1 n2 hk1 hk2)
                    hgap (List.range 10) acc1 [] acc2 [] a1 L1 a2 L2
                    (fun d hd => List.mem_range.1 hd) (List.nodup_range 10)
                    hcl1 hcl2
                obtain ⟨nwL1b, ha1b, hlef1, hCO⟩ :=
                  childLoop_char pp t1 P _ hchar1 hP (List.range 10) acc1 [] a1 L1
                    (fun d hd => List.mem_range.1 hd) (List.nodup_range 10) hcl1
                have hnwL1 : nwL1b = nwL1 :=
                  List.append_cancel_right (show nwL1b ++ acc1 = nwL1 ++ acc1 by
                    rw [← ha1b, ha1])
                rw [hnwL1] at hCO
                rw [List.nil_append] at hlef1
                have hlef2 := childLoop_ok_lefts pp t2 P _ (List.range 10) acc2 []
                  a2 L2 hcl2
                rw [List.nil_append] at hlef2
                have hPlen : P.length < ZIP_CODE_LENGTH := hCO.lenOk (by simp)
                have hLL : L2 = L1 := by
                  rw [hlef2, hlef1,
                    leftoverChildren_gap_eq pp ht P hP hPlen hgap _
                      (fun d hd => List.mem_range.1 hd)]
                have hP2 : '_' ∉ P := underscore_not_digitStr hP
                obtain ⟨nwG1, hm1, hkeys1, hjs1, hbound1, hids1, hpops1⟩ :=
                  groupLeftovers_char pp t1 P hP2 L1 0 0 a1 m1 (by omega) hok1
                obtain ⟨nwG2, hm2, hkeys2, hjs2, hbound2, hids2, hpops2⟩ :=
                  groupLeftovers_char pp t2 P hP2 L2 0 0 a2 m2 (by omega) hok2
                rw [hLL] at hids2 hpops2
                refine ⟨nwG1 ++ nwL1, nwG2 ++ nwL2,
                  by rw [hm1, ha1, List.append_assoc],
                  by rw [hm2, ha2, List.append_assoc], ?_⟩
                have hdisj1 : ∀ v ∈ idsOf nwG1, v ∉ idsOf nwL1 := by
                  intro v hv1 hv2
                  obtain ⟨kv1, hkv1, hveq1⟩ := mem_idsOf.1 hv1
                  obtain ⟨j, _, hval1⟩ := hjs1 kv1 hkv1
                  obtain ⟨kv2, hkv2, hveq2⟩ := mem_idsOf.1 hv2
                  rcases hCO.valShape kv2 hkv2 with ⟨hl2, _⟩ |
                      ⟨Q, i, hc2, ⟨d2, _, hlead2⟩, hdig2, _⟩
                  · apply chunkId_ne_digitStr (hCO.keyDigits kv2 hkv2) P j
                    rw [← hval1, hveq1, ← hveq2, hl2]
                  · have heq : chunkId P j = chunkId Q i := by
                      rw [← hval1, hveq1, ← hveq2, hc2]
                    have hPQ := (chunkId_inj hP2 heq).1
                    have := isLead_len hlead2
                    rw [← hPQ] at this
                    simp at this
                have heq1 := idsOf_card_append_eq nwG1 nwL1 hdisj1
                have hle2c := idsOf_card_append_le nwG2 nwL2
                cases hL1 : L1 with
                | nil =>
                  rw [hL1] at hkeys1 hids2 hids1
                  have hG1 : nwG1 = [] := by
                    cases nwG1 with
                    | nil => rfl
                    | cons kv l => simp at hkeys1
                  have hG2card : (idsOf nwG2).card = 0 := by
                    rw [hids2]
                    simp [binIdsFrom]
                  rw [hG1] at heq1
                  rw [idsOf_nil] at heq1
                  simp at heq1
                  rw [hG1, List.nil_append]
                  omega
                | cons x xs =>
                  rw [hL1] at hids1 hids2 hpops1 hpops2
                  have hpx1 : pp.pop x < t1 := hpops1 x (by simp)
                  have hmap : (x :: xs).map pp.pop = pp.pop x :: xs.map pp.pop := rfl
                  rw [hmap, binIds_cons_eq, if_neg (by omega)] at hids1
                  rw [hmap, binIds_cons_eq, if_neg (by omega)] at hids2
                  have hinj : ∀ s : Finset Nat, Set.InjOn (chunkId P) s :=
                    fun s a _ b _ hab => (chunkId_inj hP2 hab).2
                  have hc1 : (idsOf nwG1).card =
                      nfSteps t1 0 (pp.pop x :: xs.map pp.pop) + 1 := by
                    rw [hids1, Finset.card_image_of_injOn (hinj _), Nat.card_Icc]
                    omega
                  have hc2 : (idsOf nwG2).card =
                      nfSteps t2 0 (pp.pop x :: xs.map pp.pop) + 1 := by
                    rw [hids2, Finset.card_image_of_injOn (hinj _), Nat.card_Icc]
                    omega
                  have hnf := nf_cap ht (pp.pop x :: xs.map pp.pop) 0
                  omega

/-- Claim C8 counterexample: the number of distinct chunk identifiers is not
monotone in the target.  On nonMonotoneRows the build with target 10 yields 4
distinct identifiers while the build with the larger target 14 yields 5: the
two prefixes of population 10 stop being recursed into and instead interleave
into the greedy leftover grouping, splitting every group. -/
theorem claim_C8_counterexample :
    ¬(∀ c1 c2 : Classifier,
      Classifier.new nonMonotoneRows 10 = .ok c1 →
      Classifier.new nonMonotoneRows 14 = .ok c2 →
      (idsOf c2.chunk_id_for_pfx).card ≤ (idsOf c1.chunk_id_for_pfx).card) := by
  intro h
  have h1 : chunkCount (Classifier.new nonMonotoneRows 10) = some 4 := by decide
  have h2 : chunkCount (Classifier.new nonMonotoneRows 14) = some 5 := by decide
  cases e1 : Classifier.new nonMonotoneRows 10 with
  | error e =>
    rw [e1] at h1
    simp [chunkCount, Except.toOption] at h1
  | ok c1 =>
    cases e2 : Classifier.new nonMonotoneRows 14 with
    | error e =>
      rw [e2] at h2
      simp [chunkCount, Except.toOption] at h2
    | ok c2 =>
      rw [e1] at h1
      rw [e2] at h2
      simp [chunkCount, Except.toOption] at h1 h2
      have := h c1 c2 e1 e2
      omega

/-- Claim C8 amended: raising the target never increases the number of
distinct chunk identifiers provided no prefix has aggregate population in
the half-open interval between the two targets; the counterexample shows the
restriction is necessary since a prefix population in that interval switches
from being recursed into to joining the greedy grouping. -/
theorem claim_C8_amended_monotonic (rows : List (ZStr × Nat)) (t1 t2 : Nat)
    (ht : t1 ≤ t2)
    (hgap : ∀ q : ZStr, DigitStr q → q.length ≤ ZIP_CODE_LENGTH →
      ¬(t1 ≤ (PrefixPopulation.new rows).pop q ∧
        (PrefixPopulation.new rows).pop q < t2))
    (c1 c2 : Classifier) (h1 : Classifier.new rows t1 = .ok c1)
    (h2 : Classifier.new rows t2 = .ok c2) :
    (idsOf c2.chunk_id_for_pfx).card ≤ (idsOf c1.chunk_id_for_pfx).card := by
  obtain ⟨_, hb1⟩ := classifier_new_ok h1
  obtain ⟨_, hb2⟩ := classifier_new_ok h2
  obtain ⟨nw1, nw2, hm1, hm2, hcard⟩ := build_pair (PrefixPopulation.new rows)
    t1 t2 ht hgap (ZIP_CODE_LENGTH + 1) [] digitStr_nil [] [] _ _ hb1 hb2
  rw [List.append_nil] at hm1 hm2
  rw [hm1, hm2]
  exact hcard

theorem claim_C8_witness :
    (6 : Nat) ≤ 8 ∧
    (∀ q : ZStr, DigitStr q → q.length ≤ ZIP_CODE_LENGTH →
      ¬(6 ≤ (PrefixPopulation.new [(['0', '0', '0', '0', '0'], 5)]).pop q ∧
        (PrefixPopulation.new [(['0', '0', '0', '0', '0'], 5)]).pop q < 8)) ∧
    Classifier.new [(['0', '0', '0', '0', '0'], 5)] 6 = .ok ⟨6, [([], [])]⟩ ∧
    Classifier.new [(['0', '0', '0', '0', '0'], 5)] 8 = .ok ⟨8, [([], [])]⟩ ∧
    (idsOf (([([], [])] : List (ZStr × ZStr)))).card ≤
      (idsOf (([([], [])] : List (ZStr × ZStr)))).card := by
  have hgap : ∀ q : ZStr, DigitStr q → q.length ≤ ZIP_CODE_LENGTH →
      ¬(6 ≤ (PrefixPopulation.new [(['0', '0', '0', '0', '0'], 5)]).pop q ∧
        (PrefixPopulation.new [(['0', '0', '0', '0', '0'], 5)]).pop q < 8) := by
    intro q _ hl
    rw [pop_new _ q hl]
    simp only [List.map_cons, List.map_nil, List.sum_cons, List.sum_nil]
    split <;> omega
  exact ⟨by omega, hgap, by decide, by decide,
    claim_C8_amended_monotonic [(['0', '0', '0', '0', '0'], 5)] 6 8 (by omega)
      hgap ⟨6, [([], [])]⟩ ⟨8, [([], [])]⟩ (by decide) (by decide)⟩

end Geochunk
